import Mathlib

/-!
Shallow embedding of the V4 backtest engine core
(`src/V4/engine/portfolio_v4.py`, `execution_v4.py`, `allocation_v4.py`,
`backtest_v4.py`) for checking the natural-language specification.

Conventions of the embedding:
* currency amounts, prices, rates and weights are exact rationals (`ℚ`),
  the idealised semantics of the Python floats;
* share quantities are integers (`ℤ`); the Python code stores them as
  numbers but every quantity it ever creates comes from `round`/`int`,
  so all observable quantities are integral;
* Python dicts keyed by symbol (or by date) become association lists in
  insertion order, which is exactly the iteration order of Python dicts;
* dates are day numbers (`ℕ`); `pandas.Timedelta(days = k)` is `+ k`;
* logging is dropped; every state mutation and every returned value is kept.
-/

namespace V4

set_option maxRecDepth 40000
set_option maxHeartbeats 2000000

/-- Truncation toward zero, Python's `int(...)` conversion of a number. -/
def pyTrunc (q : ℚ) : ℤ := if 0 ≤ q then ⌊q⌋ else -⌊-q⌋

/-- Python 3 `round(...)` to an integer: round half to even. -/
def pyRound (q : ℚ) : ℤ :=
  let f := ⌊q⌋
  if q - f < 1/2 then f
  else if (1 : ℚ)/2 < q - f then f + 1
  else if f % 2 = 0 then f else f + 1

/-- Association-list lookup, the embedding of `d[k]` / `k in d` on a Python
dict iterated in insertion order. -/
def lookupKey {κ α : Type} [DecidableEq κ] (k : κ) : List (κ × α) → Option α
  | [] => none
  | (k', v) :: rest => if k' = k then some v else lookupKey k rest

/-- Replace the value stored under `k` in place (Python `d[k] = v` for a
present key keeps the key's position; for an absent key it appends). -/
def setKey {κ α : Type} [DecidableEq κ] (k : κ) (v : α) : List (κ × α) → List (κ × α)
  | [] => [(k, v)]
  | (k', v') :: rest => if k' = k then (k, v) :: rest else (k', v') :: setKey k v rest

/-- Remove the entry stored under `k` (Python `del d[k]`). -/
def eraseKey {κ α : Type} [DecidableEq κ] (k : κ) : List (κ × α) → List (κ × α)
  | [] => []
  | (k', v') :: rest => if k' = k then rest else (k', v') :: eraseKey k rest

abbrev Sym := String

/-- One price map `{symbol: price}` for a single date. -/
abbrev PriceMap := List (Sym × ℚ)

/-- One entry of `Portfolio.positions`:
`{'quantity': ..., 'cost_basis': ..., 'value': ...}`. -/
structure Position where
  quantity : ℤ
  cost_basis : ℚ
  value : ℚ
deriving DecidableEq

/-- The fields of `orders_v4.Order` that the engine ever reads.  The `price`,
`order_type` and `order_date` fields are carried around by the Python code but
never influence execution (execution always re-reads the live price map), so
they are dropped from the embedding. -/
structure Order where
  symbol : Sym
  quantity : ℤ
deriving DecidableEq

/-- `orders_v4.Trade`.  `trade_id`/`order_id` (uuids) and the order metadata
are dropped; all numeric fields are kept. -/
structure Trade where
  symbol : Sym
  quantity : ℤ
  execution_date : ℕ
  execution_price : ℚ
  commission : ℚ
  amount : ℚ
  pnl : ℚ
deriving DecidableEq

/-- One entry of `Portfolio.history`: the snapshot stored by
`Portfolio.mark_to_market`. -/
structure Snapshot where
  cash : ℚ
  positions : List (Sym × Position)
  total_value : ℚ
deriving DecidableEq

/-- `portfolio_v4.Portfolio`: cash, positions and the per-date snapshot
history. -/
structure Portfolio where
  cash : ℚ
  positions : List (Sym × Position)
  history : List (ℕ × Snapshot)
deriving DecidableEq

namespace Portfolio

/-- `Portfolio.add_position(symbol, quantity, price, cost_basis)`; the engine
always calls it with the default `cost_basis = price`. -/
def add_position (pf : Portfolio) (symbol : Sym) (quantity : ℤ) (price cost_basis : ℚ) :
    Portfolio :=
  match lookupKey symbol pf.positions with
  | some pos =>
      let current_quantity := pos.quantity
      let current_cost := pos.cost_basis * current_quantity
      let new_quantity := current_quantity + quantity
      let new_cost := current_cost + (quantity : ℚ) * cost_basis
      let newpos : Position :=
        ⟨new_quantity, new_cost / (new_quantity : ℚ), (new_quantity : ℚ) * price⟩
      if new_quantity ≠ 0 then
        { pf with positions := setKey symbol newpos pf.positions }
      else
        { pf with positions := eraseKey symbol pf.positions }
  | none =>
      let newpos : Position := ⟨quantity, cost_basis, (quantity : ℚ) * price⟩
      { pf with positions := pf.positions ++ [(symbol, newpos)] }

/-- `Portfolio.remove_position(symbol, quantity, price)`, returning
`(success, pnl)` together with the new state. -/
def remove_position (pf : Portfolio) (symbol : Sym) (quantity : ℤ) (price : ℚ) :
    Bool × ℚ × Portfolio :=
  match lookupKey symbol pf.positions with
  | some pos =>
      if quantity ≤ pos.quantity then
        let pnl := (price - pos.cost_basis) * (quantity : ℚ)
        let new_quantity := pos.quantity - quantity
        let newpos : Position :=
          ⟨new_quantity, pos.cost_basis, (new_quantity : ℚ) * price⟩
        if 0 < new_quantity then
          (true, pnl, { pf with positions := setKey symbol newpos pf.positions })
        else
          (true, pnl, { pf with positions := eraseKey symbol pf.positions })
      else (false, 0, pf)
  | none => (false, 0, pf)

/-- `Portfolio.update_from_trade(trade)`: the cash is adjusted by
`-trade.amount` unconditionally, then the position is updated; returns
`(success, pnl)` with the new state. -/
def update_from_trade (pf : Portfolio) (t : Trade) : Bool × ℚ × Portfolio :=
  let pf1 : Portfolio := { pf with cash := pf.cash - t.amount }
  if 0 < t.quantity then
    (true, 0, pf1.add_position t.symbol t.quantity t.execution_price t.execution_price)
  else
    pf1.remove_position t.symbol |t.quantity| t.execution_price

/-- `Portfolio.mark_to_market(current_date, prices)`: refresh the value of
every position whose symbol has a price (missing symbols keep their last
value), recompute the total and store the snapshot under the date, replacing
any prior snapshot for that date. -/
def mark_to_market (pf : Portfolio) (d : ℕ) (prices : PriceMap) : Portfolio :=
  let positions := pf.positions.map (fun sp =>
    match lookupKey sp.1 prices with
    | some p => (sp.1, { sp.2 with value := (sp.2.quantity : ℚ) * p })
    | none => sp)
  let total_value := pf.cash + (positions.map (fun sp => sp.2.value)).sum
  { pf with positions := positions,
            history := setKey d ⟨pf.cash, positions, total_value⟩ pf.history }

/-- `Portfolio.get_total_value(prices)` with a price map supplied: positions
with a price are valued at `quantity * price`, the rest at their last known
value. -/
def get_total_value_with (pf : Portfolio) (prices : PriceMap) : ℚ :=
  pf.cash + (pf.positions.map (fun sp =>
    match lookupKey sp.1 prices with
    | some p => (sp.2.quantity : ℚ) * p
    | none => sp.2.value)).sum

end Portfolio

/-- `execution_v4.ExecutionEngine` together with the module-level
`commission_rate` / `slippage_rate` settings its percent models read. -/
structure ExecutionEngine where
  commission_rate : ℚ
  slippage_rate : ℚ
  portfolio : Portfolio
  trade_log : List Trade
deriving DecidableEq

namespace ExecutionEngine

/-- `PercentSlippageModel.calculate_slippage`: buys pay `price*(1+rate)`,
other orders receive `price*(1-rate)`. -/
def calc_slippage (e : ExecutionEngine) (quantity : ℤ) (price : ℚ) : ℚ :=
  if 0 < quantity then price * (1 + e.slippage_rate) else price * (1 - e.slippage_rate)

/-- `PercentCommissionModel.calculate_commission`:
`abs(quantity * execution_price * commission_rate)`. -/
def calc_commission (e : ExecutionEngine) (quantity : ℤ) (execution_price : ℚ) : ℚ :=
  |(quantity : ℚ) * execution_price * e.commission_rate|

/-- `ExecutionEngine.validate_sell_order`: `none` means the order is dropped
(no price, or no position with positive quantity); an oversized sell is
clipped to the held quantity. -/
def validate_sell_order (e : ExecutionEngine) (o : Order) (prices : PriceMap) : Option Order :=
  match lookupKey o.symbol prices with
  | none => none
  | some _ =>
    match lookupKey o.symbol e.portfolio.positions with
    | none => none
    | some pos =>
      if pos.quantity ≤ 0 then none
      else
        let sell_quantity := |o.quantity|
        if pos.quantity < sell_quantity then some ⟨o.symbol, -pos.quantity⟩
        else some o

/-- `ExecutionEngine.validate_buy_order`: the requested cost (with the
commission computed from the requested quantity) is compared against the
available cash; an unaffordable order is clipped to
`int((available_cash - commission) / execution_price)` shares, or dropped
when even that is not positive. -/
def validate_buy_order (e : ExecutionEngine) (o : Order) (prices : PriceMap)
    (available_cash : ℚ) : Option Order :=
  match lookupKey o.symbol prices with
  | none => none
  | some price =>
    let execution_price := e.calc_slippage o.quantity price
    let commission := e.calc_commission o.quantity execution_price
    let total_amount := (o.quantity : ℚ) * execution_price + commission
    if available_cash < total_amount then
      if available_cash ≤ commission then none
      else
        let max_shares := pyTrunc ((available_cash - commission) / execution_price)
        if max_shares ≤ 0 then none
        else some ⟨o.symbol, max_shares⟩
    else some o

/-- The first loop of `execute_orders` over sell orders: validate against the
(pre-batch) portfolio and build the `Trade` with
`amount = quantity * execution_price - commission` (quantity is negative). -/
def mkSellTrade (e : ExecutionEngine) (o : Order) (d : ℕ) (prices : PriceMap) : Option Trade :=
  match e.validate_sell_order o prices with
  | none => none
  | some vo =>
      let price := (lookupKey vo.symbol prices).getD 0
      let execution_price := e.calc_slippage vo.quantity price
      let commission := e.calc_commission vo.quantity execution_price
      let amount := (vo.quantity : ℚ) * execution_price - commission
      some ⟨vo.symbol, vo.quantity, d, execution_price, commission, amount, 0⟩

/-- The second loop of `execute_orders`: apply each sell trade through
`update_from_trade`; only successful applications get their `pnl` recorded,
are appended to the trade log and returned. -/
def applySellTrades (e : ExecutionEngine) : List Trade → ExecutionEngine × List Trade
  | [] => (e, [])
  | t :: ts =>
      let r := e.portfolio.update_from_trade t
      let e1 : ExecutionEngine := { e with portfolio := r.2.2 }
      if r.1 then
        let t1 : Trade := { t with pnl := r.2.1 }
        let e2 : ExecutionEngine := { e1 with trade_log := e1.trade_log ++ [t1] }
        let rest := e2.applySellTrades ts
        (rest.1, t1 :: rest.2)
      else
        e1.applySellTrades ts

/-- The buy loop of `execute_orders`: each buy order is validated against the
live cash balance, the trade is rebuilt from the (possibly clipped) order and
applied; on success it is logged and returned. -/
def applyBuyOrders (e : ExecutionEngine) (d : ℕ) (prices : PriceMap) :
    List Order → ExecutionEngine × List Trade
  | [] => (e, [])
  | o :: os =>
      match e.validate_buy_order o prices e.portfolio.cash with
      | none => e.applyBuyOrders d prices os
      | some vo =>
          let price := (lookupKey vo.symbol prices).getD 0
          let execution_price := e.calc_slippage vo.quantity price
          let commission := e.calc_commission vo.quantity execution_price
          let amount := (vo.quantity : ℚ) * execution_price + commission
          let t : Trade := ⟨vo.symbol, vo.quantity, d, execution_price, commission, amount, 0⟩
          let r := e.portfolio.update_from_trade t
          if r.1 then
            let e1 : ExecutionEngine :=
              { e with portfolio := r.2.2, trade_log := e.trade_log ++ [t] }
            let rest := e1.applyBuyOrders d prices os
            (rest.1, t :: rest.2)
          else
            let e1 : ExecutionEngine := { e with portfolio := r.2.2 }
            e1.applyBuyOrders d prices os

/-- `ExecutionEngine.execute_orders(orders, execution_date, prices)`: sells
are validated and applied first (all validations read the pre-batch
portfolio), then buys consume the post-sell cash sequentially. -/
def execute_orders (e : ExecutionEngine) (orders : List Order) (d : ℕ) (prices : PriceMap) :
    ExecutionEngine × List Trade :=
  if orders.isEmpty then (e, [])
  else
    let sell_orders := orders.filter (fun o => decide (o.quantity < 0))
    let buy_orders := orders.filter (fun o => decide (0 < o.quantity))
    let sell_trades := sell_orders.filterMap (fun o => e.mkSellTrade o d prices)
    let r1 := e.applySellTrades sell_trades
    let r2 := r1.1.applyBuyOrders d prices buy_orders
    (r2.1, r1.2 ++ r2.2)

end ExecutionEngine

/-- `allocation_v4.compare_positions`: dollar changes
`(target_weight - current_weight) * portfolio_value` for the union of the
symbol sets, filtered by `abs(change) > 0.01`.  The Python code iterates the
union as a `set` (arbitrary order); the embedding fixes one realisation of
that order (held symbols first, then target-only symbols); no claim depends
on the iteration order. -/
def compare_positions (current_positions : List (Sym × Position))
    (target_allocations : List (Sym × ℚ)) (portfolio_value : ℚ) (prices : PriceMap) :
    List (Sym × ℚ) :=
  let current_allocations := current_positions.map (fun sp =>
    match lookupKey sp.1 prices with
    | some p => (sp.1, ((sp.2.quantity : ℚ) * p) / portfolio_value)
    | none => (sp.1, sp.2.value / portfolio_value))
  let current_allocations := current_allocations ++
    ((target_allocations.filter (fun tp => (lookupKey tp.1 current_allocations).isNone)).map
      (fun tp => (tp.1, (0 : ℚ))))
  current_allocations.filterMap (fun cp =>
    let target_weight := (lookupKey cp.1 target_allocations).getD 0
    let dollar_change := (target_weight - cp.2) * portfolio_value
    if 1/100 < |dollar_change| then some (cp.1, dollar_change) else none)

/-- A buy candidate of `generate_orders`' first pass
(`buy_order_estimates[symbol]`). -/
structure BuyEst where
  symbol : Sym
  quantity : ℤ
  adjusted_price : ℚ
  total_cost : ℚ
  single_share_cost : ℚ
  dollar_change : ℚ
deriving DecidableEq

/-- Stable insertion of a candidate after all candidates with a dollar change
`≥` its own. -/
def insertDesc (b : BuyEst) : List BuyEst → List BuyEst
  | [] => [b]
  | c :: rest =>
      if c.dollar_change < b.dollar_change then b :: c :: rest
      else c :: insertDesc b rest

/-- `sorted(..., key=dollar_change, reverse=True)`: a stable descending sort
(candidates with equal dollar change keep their first-pass order). -/
def sortByDollarChange (l : List BuyEst) : List BuyEst :=
  l.foldl (fun acc b => insertDesc b acc) []

/-- The sell loop of `generate_orders`: clip to the held quantity, skip empty
sells, and accumulate the estimated cash freed (`notional - commission`).
Returns (orders, cash_freed). -/
def sellLoop (cr : ℚ) (prices : PriceMap) (current_positions : List (Sym × Position))
    (sell_changes : List (Sym × ℚ)) : List Order × ℚ :=
  sell_changes.foldl (fun (acc : List Order × ℚ) sc =>
    let price := (lookupKey sc.1 prices).getD 0
    let target_quantity := sc.2 / price
    let current_qty :=
      match lookupKey sc.1 current_positions with
      | some pos => pos.quantity
      | none => 0
    let max_sellable0 := |pyRound target_quantity|
    let max_sellable := if current_qty < max_sellable0 then current_qty else max_sellable0
    if max_sellable ≤ 0 then acc
    else
      let quantity := -max_sellable
      let actual_dollars := |(quantity : ℚ) * price|
      let commission := actual_dollars * cr
      (acc.1 ++ [⟨sc.1, quantity⟩], acc.2 + (actual_dollars - commission)))
    ([], 0)

/-- The proportional-scaling first pass of `generate_orders`: in priority
order, truncate each candidate's quantity by the scaling factor (bumping a
vanishing quantity to one share when a single share fits the remaining
buffered cash) and accept it only if its recomputed all-in cost fits the
remaining cash.  Returns the accepted `{symbol: quantity}` map (insertion
order) and the remaining cash. -/
def scalePass1 (cr : ℚ) (scaling_factor buffered_cash : ℚ) (prioritized : List BuyEst) :
    List (Sym × ℤ) × ℚ :=
  prioritized.foldl (fun (acc : List (Sym × ℤ) × ℚ) b =>
    let scaled0 := pyTrunc ((b.quantity : ℚ) * scaling_factor)
    let scaled := if scaled0 < 1 ∧ b.single_share_cost ≤ acc.2 then 1 else scaled0
    if 0 < scaled then
      let adjusted_cost := (scaled : ℚ) * b.adjusted_price
      let adjusted_total := adjusted_cost + adjusted_cost * cr
      if adjusted_total ≤ acc.2 then
        (acc.1 ++ [(b.symbol, scaled)], acc.2 - adjusted_total)
      else acc
    else acc)
    ([], buffered_cash)

/-- The greedy top-up second pass of `generate_orders`: in the same priority
order, add as many extra whole shares as the remaining cash affords, capped
by the candidate's original quantity. -/
def scalePass2 (cr : ℚ) (prioritized : List BuyEst) (start : List (Sym × ℤ) × ℚ) :
    List (Sym × ℤ) × ℚ :=
  prioritized.foldl (fun (acc : List (Sym × ℤ) × ℚ) b =>
    match lookupKey b.symbol acc.1 with
    | none => acc
    | some q =>
      if b.single_share_cost ≤ acc.2 then
        let additional0 := pyTrunc (acc.2 / b.single_share_cost)
        if 0 < additional0 then
          let max_additional := b.quantity - q
          let additional := if max_additional < additional0 then max_additional else additional0
          if 0 < additional then
            let additional_cost := (additional : ℚ) * b.adjusted_price
            let additional_total := additional_cost + additional_cost * cr
            (setKey b.symbol (q + additional) acc.1, acc.2 - additional_total)
          else acc
        else acc
      else acc)
    start

/-- `allocation_v4.generate_orders(dollar_changes, prices, order_date,
available_cash, current_positions)`.  `order_date` only feeds logging and the
(unused) order metadata, so it is dropped.  `cr`/`sr` are the module-level
commission and slippage rates. -/
def generate_orders (cr sr : ℚ) (dollar_changes : List (Sym × ℚ)) (prices : PriceMap)
    (available_cash : ℚ) (current_positions : List (Sym × Position)) : List Order :=
  let cash_buffer_factor : ℚ := 999/1000
  let valid := dollar_changes.filter (fun sc => (lookupKey sc.1 prices).isSome)
  let buy_changes := valid.filter (fun sc => decide (0 < sc.2))
  let sell_changes := valid.filter (fun sc =>
    decide (sc.2 < (0 : ℚ)) &&
      (match lookupKey sc.1 current_positions with
       | some pos => decide (0 < pos.quantity)
       | none => false))
  let sres := sellLoop cr prices current_positions sell_changes
  let orders0 := sres.1
  let cash_freed := sres.2
  let total_available_cash := available_cash + cash_freed
  if total_available_cash ≤ 0 ∨ buy_changes = [] then orders0
  else
    let ests := buy_changes.filterMap (fun sc =>
      let price := (lookupKey sc.1 prices).getD 0
      let adjusted_price := price * (1 + sr)
      let quantity := pyRound (sc.2 / price)
      if quantity ≤ 0 then none
      else
        let cost := (quantity : ℚ) * adjusted_price
        let commission_cost := cost * cr
        some (⟨sc.1, quantity, adjusted_price, cost + commission_cost,
               adjusted_price * (1 + cr), sc.2⟩ : BuyEst))
    let total_estimated_cost := (ests.map (fun b => b.total_cost)).sum
    if total_available_cash * cash_buffer_factor < total_estimated_cost ∧ ests ≠ [] then
      let buffered_cash := total_available_cash * cash_buffer_factor
      let scaling_factor := buffered_cash / total_estimated_cost
      let prioritized := sortByDollarChange ests
      let pass1 := scalePass1 cr scaling_factor buffered_cash prioritized
      let pass2 := if 0 < pass1.2 then scalePass2 cr prioritized pass1 else pass1
      orders0 ++ pass2.1.filterMap (fun sq =>
        if 0 < sq.2 then some (⟨sq.1, sq.2⟩ : Order) else none)
    else
      orders0 ++ ests.map (fun b => (⟨b.symbol, b.quantity⟩ : Order))

/-- `allocation_v4.calculate_rebalance_orders(portfolio, target_allocations,
prices, order_date)`. -/
def calculate_rebalance_orders (cr sr : ℚ) (pf : Portfolio)
    (target_allocations : List (Sym × ℚ)) (prices : PriceMap) : List Order :=
  let current_positions := pf.positions
  let portfolio_value := pf.get_total_value_with prices
  let dollar_changes :=
    compare_positions current_positions target_allocations portfolio_value prices
  generate_orders cr sr dollar_changes prices pf.cash current_positions

/-- The run-level configuration of `backtest_v4.BacktestEngine.run_backtest`:
the price data (a date axis with one price map per date), the precomputed
rebalance dates, the precomputed signals and the `strategy.execution_delay`
setting (in days: the source adds `pd.Timedelta(days=execution_delay)`). -/
structure BTConfig where
  execution_delay : ℕ
  price_data : List (ℕ × PriceMap)
  rebalance_dates : List ℕ
  signals_dict : List (ℕ × List (Sym × ℚ))
deriving DecidableEq

/-- The loop-carried state of `run_backtest`: the execution engine (owning
the portfolio and trade log), `self.pending_orders`, the `signals` local
variable (which Python keeps across loop iterations; it is unassigned before
the first rebalance-eligible date, so runs are modelled only from a first
date that is eligible) and `self.last_rebalance_date`. -/
structure BTState where
  engine : ExecutionEngine
  pending_orders : List (ℕ × List Order)
  signals : List (Sym × ℚ)
  last_rebalance_date : Option ℕ
deriving DecidableEq

/-- One iteration of the `for current_date in price_data.index` loop of
`run_backtest`: pop-and-execute pending orders keyed to today, mark to
market, refresh `signals` only on rebalance-eligible dates (stale signals
survive on other dates), and then — not gated on eligibility in the source —
generate orders from `signals` and execute them, immediately against the
future date's prices when `execution_delay > 0` and that date is on the axis,
dropping them when it is not. -/
def btStep (cfg : BTConfig) (st : BTState) (d : ℕ) : BTState :=
  let current_prices := (lookupKey d cfg.price_data).getD []
  let st1 : BTState :=
    match lookupKey d st.pending_orders with
    | some po =>
        let r := st.engine.execute_orders po d current_prices
        { st with engine := r.1, pending_orders := eraseKey d st.pending_orders }
    | none => st
  let e1 : ExecutionEngine :=
    { st1.engine with portfolio := st1.engine.portfolio.mark_to_market d current_prices }
  let signals :=
    if d ∈ cfg.rebalance_dates then (lookupKey d cfg.signals_dict).getD []
    else st1.signals
  if signals ≠ [] then
    let orders :=
      calculate_rebalance_orders e1.commission_rate e1.slippage_rate e1.portfolio
        signals current_prices
    let e2 : ExecutionEngine :=
      if 0 < cfg.execution_delay then
        let execution_date := d + cfg.execution_delay
        match lookupKey execution_date cfg.price_data with
        | some execution_prices => (e1.execute_orders orders execution_date execution_prices).1
        | none => e1
      else (e1.execute_orders orders d current_prices).1
    { st1 with engine := e2, signals := signals, last_rebalance_date := some d }
  else
    { st1 with engine := e1, signals := signals }

/-- The whole date loop of `run_backtest`. -/
def btRun (cfg : BTConfig) (init : BTState) : BTState :=
  cfg.price_data.foldl (fun st dp => btStep cfg st dp.1) init

/-- A fresh engine as `ExecutionEngine.__init__` builds it: an empty
portfolio holding the initial capital and an empty trade log. -/
def initEngine (cr sr capital : ℚ) : ExecutionEngine :=
  ⟨cr, sr, ⟨capital, [], []⟩, []⟩

/-- A fresh driver state as `BacktestEngine.__init__` builds it. -/
def initBTState (cr sr capital : ℚ) : BTState :=
  ⟨initEngine cr sr capital, [], [], none⟩

/-! Section Helper lemmas about association lists and the portfolio operations -/

theorem lookupKey_setKey_self {κ α : Type} [DecidableEq κ] (k : κ) (v : α)
    (l : List (κ × α)) : lookupKey k (setKey k v l) = some v := by
  induction l with
  | nil => simp [setKey, lookupKey]
  | cons hd tl ih =>
      obtain ⟨k', v'⟩ := hd
      by_cases h : k' = k
      · simp [setKey, lookupKey, h]
      · simpa [setKey, lookupKey, h] using ih

theorem lookupKey_append_single {κ α : Type} [DecidableEq κ] (k : κ) (v : α)
    (l : List (κ × α)) (h : lookupKey k l = none) :
    lookupKey k (l ++ [(k, v)]) = some v := by
  induction l with
  | nil => simp [lookupKey]
  | cons hd tl ih =>
      obtain ⟨k', v'⟩ := hd
      by_cases hk : k' = k
      · simp [lookupKey, hk] at h
      · simp only [lookupKey, if_neg hk] at h
        simpa [lookupKey, hk] using ih h

theorem Portfolio.add_position_cash (pf : Portfolio) (s : Sym) (q : ℤ) (p cb : ℚ) :
    (pf.add_position s q p cb).cash = pf.cash := by
  unfold Portfolio.add_position
  cases lookupKey s pf.positions
  case none => rfl
  case some pos =>
    dsimp only []
    split <;> rfl

theorem Portfolio.remove_position_cash (pf : Portfolio) (s : Sym) (q : ℤ) (p : ℚ) :
    ((pf.remove_position s q p).2.2).cash = pf.cash := by
  unfold Portfolio.remove_position
  cases lookupKey s pf.positions
  case none => rfl
  case some pos =>
    dsimp only []
    split
    · split <;> rfl
    · rfl

/-- `update_from_trade` adjusts the cash by `-trade.amount` unconditionally,
whether or not the position update succeeds. -/
theorem Portfolio.update_from_trade_cash (pf : Portfolio) (t : Trade) :
    ((pf.update_from_trade t).2.2).cash = pf.cash - t.amount := by
  unfold Portfolio.update_from_trade
  dsimp only []
  split
  · exact Portfolio.add_position_cash _ _ _ _ _
  · exact Portfolio.remove_position_cash _ _ _ _

/-! Section C10 — a rejected sell still mutates the cash balance -/

/-- C10: for every sell trade (negative quantity) whose application fails
because the symbol has no position or the held quantity is smaller than the
requested magnitude, `Portfolio.update_from_trade` returns `(False, 0)` and
leaves the positions map unchanged, but the cash balance has already been
changed by `-trade.amount` and is not rolled back. -/
theorem update_from_trade_rejected_sell_leaks_cash (pf : Portfolio) (t : Trade)
    (hq : t.quantity < 0)
    (hfail : ∀ pos, lookupKey t.symbol pf.positions = some pos →
      pos.quantity < |t.quantity|) :
    pf.update_from_trade t = (false, 0, { pf with cash := pf.cash - t.amount }) := by
  unfold Portfolio.update_from_trade
  dsimp only []
  rw [if_neg (by omega : ¬ 0 < t.quantity)]
  unfold Portfolio.remove_position
  dsimp only []
  cases hl : lookupKey t.symbol pf.positions with
  | none => rfl
  | some pos =>
      have hlt := hfail pos hl
      dsimp only []
      rw [if_neg (by omega : ¬ |t.quantity| ≤ pos.quantity)]

def c10pf : Portfolio := ⟨100, [], []⟩

def c10t : Trade := ⟨"A", -5, 0, 10, 0, -50, 0⟩

/-- Witness for C10: a sell of 5 shares of an unheld symbol is rejected, yet
the cash moves from 100 to 150. -/
theorem update_from_trade_rejected_sell_leaks_cash_witness :
    c10t.quantity < 0 ∧
      c10pf.update_from_trade c10t = (false, 0, (⟨150, [], []⟩ : Portfolio)) :=
  ⟨by decide,
    (update_from_trade_rejected_sell_leaks_cash c10pf c10t (by decide)
      (fun pos h => by simp [c10pf, lookupKey] at h)).trans
      (by with_unfolding_all decide)⟩

/-! Section C9 — weighted-average cost basis on buys -/

/-- C9: a buy of `t.quantity` shares at trade price `t.execution_price`
merges into an existing position by the weighted-average rule
`(old_qty*old_cost + buy_qty*price)/(old_qty+buy_qty)` (with the quantity
summed and the value refreshed), and creates a fresh position
`(buy_qty, price, buy_qty*price)` when the symbol is absent. -/
theorem buy_weighted_average_cost_basis (pf : Portfolio) (t : Trade)
    (ht : 0 < t.quantity) :
    (∀ pos, lookupKey t.symbol pf.positions = some pos → 0 ≤ pos.quantity →
      lookupKey t.symbol ((pf.update_from_trade t).2.2).positions =
        some ⟨pos.quantity + t.quantity,
          ((pos.quantity : ℚ) * pos.cost_basis + (t.quantity : ℚ) * t.execution_price) /
            ((pos.quantity : ℚ) + (t.quantity : ℚ)),
          ((pos.quantity : ℚ) + (t.quantity : ℚ)) * t.execution_price⟩) ∧
    (lookupKey t.symbol pf.positions = none →
      lookupKey t.symbol ((pf.update_from_trade t).2.2).positions =
        some ⟨t.quantity, t.execution_price, (t.quantity : ℚ) * t.execution_price⟩) := by
  constructor
  · intro pos hl h0
    unfold Portfolio.update_from_trade
    dsimp only []
    rw [if_pos ht]
    unfold Portfolio.add_position
    dsimp only []
    rw [hl]
    dsimp only []
    rw [if_pos (by omega : pos.quantity + t.quantity ≠ 0)]
    dsimp only []
    rw [lookupKey_setKey_self]
    simp only [Option.some.injEq, Position.mk.injEq, true_and]
    constructor
    · push_cast
      ring
    · push_cast
      ring
  · intro hl
    unfold Portfolio.update_from_trade
    dsimp only []
    rw [if_pos ht]
    unfold Portfolio.add_position
    dsimp only []
    rw [hl]
    exact lookupKey_append_single _ _ _ hl

def c9pf : Portfolio := ⟨0, [("A", ⟨10, 5, 50⟩)], []⟩

def c9t : Trade := ⟨"A", 10, 0, 15, 0, 150, 0⟩

/-- Witness for C9: merging 10 shares at 15 into 10 held at cost 5 gives 20
shares at weighted-average cost 10, value 300. -/
theorem buy_weighted_average_cost_basis_witness :
    0 < c9t.quantity ∧
      lookupKey "A" ((c9pf.update_from_trade c9t).2.2).positions =
        some (⟨20, 10, 300⟩ : Position) :=
  ⟨by decide,
    ((buy_weighted_average_cost_basis c9pf c9t (by decide)).1 ⟨10, 5, 50⟩
      (by with_unfolding_all decide) (by decide)).trans
      (by with_unfolding_all decide)⟩

/-! Section C8 — mark-to-market snapshots are internally consistent -/

theorem lookupKey_mark_map (prices : PriceMap) (l : List (Sym × Position)) (s : Sym) :
    lookupKey s (l.map (fun sp =>
      match lookupKey sp.1 prices with
      | some p => (sp.1, { sp.2 with value := (sp.2.quantity : ℚ) * p })
      | none => sp)) =
    (lookupKey s l).map (fun pos =>
      match lookupKey s prices with
      | some p => { pos with value := (pos.quantity : ℚ) * p }
      | none => pos) := by
  induction l with
  | nil => simp [lookupKey]
  | cons hd tl ih =>
      obtain ⟨k, v⟩ := hd
      by_cases hk : k = s
      · subst hk
        cases hp : lookupKey k prices <;> simp [lookupKey, hp]
      · cases hp : lookupKey k prices <;> simp [lookupKey, hp, hk, ih]

/-- C8: the snapshot `mark_to_market` stores under the given date (it
replaces any prior snapshot for that date) records the cash balance, the
refreshed positions (a held symbol's value becomes `quantity * price` when a
price is supplied and is otherwise retained) and a `total_value` exactly
equal to cash plus the sum of the stored position values (exact equality in
ℚ, hence within the spec's 1e-6 tolerance). -/
theorem mark_to_market_snapshot_consistent (pf : Portfolio) (d : ℕ) (prices : PriceMap) :
    ∃ snap : Snapshot,
      lookupKey d (pf.mark_to_market d prices).history = some snap ∧
      snap.total_value = snap.cash + (snap.positions.map (fun sp => sp.2.value)).sum ∧
      snap.cash = pf.cash ∧
      snap.positions = (pf.mark_to_market d prices).positions ∧
      (∀ s pos, lookupKey s pf.positions = some pos →
        lookupKey s snap.positions =
          some (match lookupKey s prices with
                | some p => { pos with value := (pos.quantity : ℚ) * p }
                | none => pos)) := by
  unfold Portfolio.mark_to_market
  dsimp only []
  refine ⟨_, lookupKey_setKey_self _ _ _, rfl, rfl, rfl, ?_⟩
  intro s pos hl
  rw [lookupKey_mark_map, hl]
  rfl

def c8pf : Portfolio :=
  ⟨100, [("A", ⟨2, 3, 8⟩), ("B", ⟨1, 4, 7⟩)], [(0, ⟨0, [], 0⟩)]⟩

def c8prices : PriceMap := [("A", 5)]

/-- Witness for C8: marking a two-position portfolio (one quoted symbol, one
with a missing price) on a date that already has a snapshot. -/
theorem mark_to_market_snapshot_consistent_witness :
    (∃ snap : Snapshot,
      lookupKey 0 (c8pf.mark_to_market 0 c8prices).history = some snap ∧
      snap.total_value = snap.cash + (snap.positions.map (fun sp => sp.2.value)).sum) ∧
    lookupKey 0 (c8pf.mark_to_market 0 c8prices).history =
      some ⟨100, [("A", ⟨2, 3, 10⟩), ("B", ⟨1, 4, 7⟩)], 117⟩ := by
  constructor
  · obtain ⟨snap, h1, h2, _⟩ := mark_to_market_snapshot_consistent c8pf 0 c8prices
    exact ⟨snap, h1, h2⟩
  · with_unfolding_all decide

/-! Section Single-sell execution lemmas (shared by C5 and C7) -/

theorem validate_sell_some (e : ExecutionEngine) (o : Order) (prices : PriceMap)
    (p : ℚ) (pos : Position)
    (ho : o.quantity < 0)
    (hp : lookupKey o.symbol prices = some p)
    (hpos : lookupKey o.symbol e.portfolio.positions = some pos)
    (h0 : 0 < pos.quantity) :
    e.validate_sell_order o prices = some ⟨o.symbol, -(min pos.quantity |o.quantity|)⟩ := by
  unfold ExecutionEngine.validate_sell_order
  rw [hp, hpos]
  dsimp only []
  rw [if_neg (by omega : ¬ pos.quantity ≤ 0)]
  split
  · rename_i hlt
    have : min pos.quantity |o.quantity| = pos.quantity := min_eq_left (le_of_lt hlt)
    rw [this]
  · rename_i hge
    have h1 : min pos.quantity |o.quantity| = |o.quantity| := min_eq_right (le_of_not_lt hge)
    rw [h1, abs_of_neg ho, neg_neg]

theorem mkSellTrade_some (e : ExecutionEngine) (o : Order) (d : ℕ) (prices : PriceMap)
    (p : ℚ) (pos : Position)
    (ho : o.quantity < 0)
    (hp : lookupKey o.symbol prices = some p)
    (hpos : lookupKey o.symbol e.portfolio.positions = some pos)
    (h0 : 0 < pos.quantity) :
    e.mkSellTrade o d prices =
      some ⟨o.symbol, -(min pos.quantity |o.quantity|), d,
            p * (1 - e.slippage_rate),
            |(-(min pos.quantity |o.quantity|) : ℚ) * (p * (1 - e.slippage_rate)) *
              e.commission_rate|,
            (-(min pos.quantity |o.quantity|) : ℚ) * (p * (1 - e.slippage_rate)) -
              |(-(min pos.quantity |o.quantity|) : ℚ) * (p * (1 - e.slippage_rate)) *
                e.commission_rate|,
            0⟩ := by
  unfold ExecutionEngine.mkSellTrade
  rw [validate_sell_some e o prices p pos ho hp hpos h0]
  dsimp only []
  rw [hp]
  unfold ExecutionEngine.calc_slippage ExecutionEngine.calc_commission
  dsimp only [Option.getD]
  rw [if_neg (by
    have h1 : 0 < |o.quantity| := abs_pos.mpr (ne_of_lt ho)
    omega : ¬ (0 : ℤ) < -(min pos.quantity |o.quantity|))]
  push_cast
  rfl

/-- A sell trade whose magnitude fits the held quantity applies successfully,
with the realized pnl `(execution_price - cost_basis) * |quantity|`. -/
theorem update_sell_components (pf : Portfolio) (t : Trade) (pos : Position)
    (hq : t.quantity < 0)
    (hpos : lookupKey t.symbol pf.positions = some pos)
    (hle : |t.quantity| ≤ pos.quantity) :
    (pf.update_from_trade t).1 = true ∧
    (pf.update_from_trade t).2.1 =
      (t.execution_price - pos.cost_basis) * ((|t.quantity| : ℤ) : ℚ) := by
  unfold Portfolio.update_from_trade
  dsimp only []
  rw [if_neg (by omega : ¬ 0 < t.quantity)]
  unfold Portfolio.remove_position
  dsimp only []
  rw [hpos]
  dsimp only []
  rw [if_pos hle]
  split <;> exact ⟨rfl, rfl⟩

theorem applySellTrades_single_success (e : ExecutionEngine) (t : Trade)
    (h : (e.portfolio.update_from_trade t).1 = true) :
    e.applySellTrades [t] =
      ({ e with portfolio := (e.portfolio.update_from_trade t).2.2,
                trade_log := e.trade_log ++
                  [{ t with pnl := (e.portfolio.update_from_trade t).2.1 }] },
       [{ t with pnl := (e.portfolio.update_from_trade t).2.1 }]) := by
  unfold ExecutionEngine.applySellTrades
  dsimp only []
  rw [h]
  simp [ExecutionEngine.applySellTrades]

/-- Executing a batch consisting of one sell order against a positive held
position always produces exactly one trade: the magnitude is clipped to the
held quantity when the request exceeds it, the execution price is
`price * (1 - slippage_rate)` and the recorded pnl is
`(execution_price - cost_basis) * magnitude`. -/
theorem exec_single_sell (e : ExecutionEngine) (o : Order) (d : ℕ) (prices : PriceMap)
    (p : ℚ) (pos : Position)
    (ho : o.quantity < 0)
    (hp : lookupKey o.symbol prices = some p)
    (hpos : lookupKey o.symbol e.portfolio.positions = some pos)
    (h0 : 0 < pos.quantity) :
    ((e.execute_orders [o] d prices).2).map (fun t => (t.quantity, t.pnl)) =
      [(-(min pos.quantity |o.quantity|),
        (p * (1 - e.slippage_rate) - pos.cost_basis) *
          ((min pos.quantity |o.quantity| : ℤ) : ℚ))] := by
  have hminpos : 0 < min pos.quantity |o.quantity| := by
    have h1 : 0 < |o.quantity| := abs_pos.mpr (ne_of_lt ho)
    omega
  unfold ExecutionEngine.execute_orders
  dsimp only []
  rw [if_neg (by simp : ¬ ([o].isEmpty = true))]
  rw [show List.filter (fun x => decide (x.quantity < 0)) [o] = [o] by
        simp [List.filter_cons, ho]]
  rw [show List.filter (fun x => decide (0 < x.quantity)) [o] = [] by
        simp [List.filter_cons]
        omega]
  rw [show List.filterMap (fun x => e.mkSellTrade x d prices) [o] =
        [⟨o.symbol, -(min pos.quantity |o.quantity|), d,
          p * (1 - e.slippage_rate),
          |(-(min pos.quantity |o.quantity|) : ℚ) * (p * (1 - e.slippage_rate)) *
            e.commission_rate|,
          (-(min pos.quantity |o.quantity|) : ℚ) * (p * (1 - e.slippage_rate)) -
            |(-(min pos.quantity |o.quantity|) : ℚ) * (p * (1 - e.slippage_rate)) *
              e.commission_rate|,
          0⟩] by
        simp [List.filterMap_cons, mkSellTrade_some e o d prices p pos ho hp hpos h0]]
  have hcomp := update_sell_components e.portfolio
    ⟨o.symbol, -(min pos.quantity |o.quantity|), d,
      p * (1 - e.slippage_rate),
      |(-(min pos.quantity |o.quantity|) : ℚ) * (p * (1 - e.slippage_rate)) *
        e.commission_rate|,
      (-(min pos.quantity |o.quantity|) : ℚ) * (p * (1 - e.slippage_rate)) -
        |(-(min pos.quantity |o.quantity|) : ℚ) * (p * (1 - e.slippage_rate)) *
          e.commission_rate|,
      0⟩ pos (by dsimp only []; omega) hpos
    (by dsimp only []; rw [abs_of_neg (by omega : -(min pos.quantity |o.quantity|) < 0)]; omega)
  rw [applySellTrades_single_success _ _ hcomp.1]
  dsimp only []
  rw [show (ExecutionEngine.applyBuyOrders _ d prices []) = (_, ([] : List Trade)) from rfl]
  dsimp only []
  rw [hcomp.2]
  rw [abs_of_neg (by omega : -(min pos.quantity |o.quantity|) < 0), neg_neg]
  simp

/-! Section C7 — realized pnl of a sell -/

/-- C7: for a sell of `|o.quantity|` shares fitting the held quantity of
a position with cost basis `pos.cost_basis`, the pnl recorded on the executed
Trade is `(execution_price - cost_basis) * |quantity|` with
`execution_price = p * (1 - slippage_rate)`; the commission does not appear
in this figure (it only enters the trade's cash `amount`). -/
theorem sell_realized_pnl (e : ExecutionEngine) (o : Order) (d : ℕ) (prices : PriceMap)
    (p : ℚ) (pos : Position)
    (ho : o.quantity < 0)
    (hp : lookupKey o.symbol prices = some p)
    (hpos : lookupKey o.symbol e.portfolio.positions = some pos)
    (h0 : 0 < pos.quantity)
    (hle : |o.quantity| ≤ pos.quantity) :
    ((e.execute_orders [o] d prices).2).map (fun t => t.pnl) =
      [(p * (1 - e.slippage_rate) - pos.cost_basis) * ((|o.quantity| : ℤ) : ℚ)] := by
  have h := exec_single_sell e o d prices p pos ho hp hpos h0
  rw [min_eq_right hle] at h
  have hsplit : ((e.execute_orders [o] d prices).2).map (fun t => t.pnl) =
      (((e.execute_orders [o] d prices).2).map (fun t => (t.quantity, t.pnl))).map
        Prod.snd := by
    simp [List.map_map]
  rw [hsplit, h]
  simp

def c7e : ExecutionEngine := ⟨1/100, 0, ⟨0, [("B", ⟨50, 10, 500⟩)], []⟩, []⟩

/-- Witness for C7 (the spec's Scenario B, with a nonzero commission rate to
show the commission is not subtracted): 50 shares at cost basis 10 fully sold
at 12 yield pnl 100. -/
theorem sell_realized_pnl_witness :
    ((-50 : ℤ) < 0) ∧
      ((c7e.execute_orders [⟨"B", -50⟩] 0 [("B", 12)]).2).map (fun t => t.pnl) =
        [(100 : ℚ)] :=
  ⟨by decide,
    (sell_realized_pnl c7e ⟨"B", -50⟩ 0 [("B", 12)] 12 ⟨50, 10, 500⟩
      (by decide) (by with_unfolding_all decide) (by with_unfolding_all decide)
      (by decide) (by decide)).trans (by with_unfolding_all decide)⟩

/-! Section C5 — sell validation: clipping, dropping, and the no-oversell bound -/

theorem exec_single_sell_drop (e : ExecutionEngine) (o : Order) (d : ℕ) (prices : PriceMap)
    (ho : o.quantity < 0)
    (hdrop : lookupKey o.symbol e.portfolio.positions = none ∨
      ∀ pos, lookupKey o.symbol e.portfolio.positions = some pos → pos.quantity ≤ 0) :
    e.execute_orders [o] d prices = (e, []) := by
  have hmk : e.mkSellTrade o d prices = none := by
    unfold ExecutionEngine.mkSellTrade ExecutionEngine.validate_sell_order
    cases hpp : lookupKey o.symbol prices with
    | none => rfl
    | some p =>
        cases hpos : lookupKey o.symbol e.portfolio.positions with
        | none => rfl
        | some pos =>
            dsimp only []
            rcases hdrop with h | h
            · rw [hpos] at h
              exact absurd h (by simp)
            · rw [if_pos (h pos hpos)]
  unfold ExecutionEngine.execute_orders
  dsimp only []
  rw [if_neg (by simp : ¬ ([o].isEmpty = true))]
  rw [show List.filter (fun x => decide (x.quantity < 0)) [o] = [o] by
        simp [List.filter_cons, ho]]
  rw [show List.filter (fun x => decide (0 < x.quantity)) [o] = [] by
        simp [List.filter_cons]
        omega]
  rw [show List.filterMap (fun x => e.mkSellTrade x d prices) [o] = [] by
        simp [List.filterMap_cons, hmk]]
  rfl

theorem update_sell_success_requires_held (pf : Portfolio) (t : Trade)
    (hq : t.quantity < 0) (h : (pf.update_from_trade t).1 = true) :
    ∃ pos, lookupKey t.symbol pf.positions = some pos ∧ |t.quantity| ≤ pos.quantity := by
  unfold Portfolio.update_from_trade at h
  dsimp only [] at h
  rw [if_neg (by omega : ¬ 0 < t.quantity)] at h
  unfold Portfolio.remove_position at h
  dsimp only [] at h
  cases hl : lookupKey t.symbol pf.positions with
  | none =>
      rw [hl] at h
      exact absurd h (by simp)
  | some pos =>
      rw [hl] at h
      dsimp only [] at h
      by_cases hle : |t.quantity| ≤ pos.quantity
      · exact ⟨pos, rfl, hle⟩
      · rw [if_neg hle] at h
        exact absurd h (by simp)

theorem lookupKey_setKey_ne {κ α : Type} [DecidableEq κ] (k s : κ) (v : α)
    (l : List (κ × α)) (hne : k ≠ s) :
    lookupKey s (setKey k v l) = lookupKey s l := by
  induction l with
  | nil => simp [setKey, lookupKey, hne]
  | cons hd tl ih =>
      obtain ⟨k', v'⟩ := hd
      by_cases hk : k' = k
      · subst hk
        simp [setKey, lookupKey, hne]
      · by_cases hs : k' = s
        · simp [setKey, lookupKey, hk, hs, Ne.symm hne]
        · simp [setKey, lookupKey, hk, hs, ih]

theorem lookupKey_eraseKey_ne {κ α : Type} [DecidableEq κ] (k s : κ)
    (l : List (κ × α)) (hne : k ≠ s) :
    lookupKey s (eraseKey k l) = lookupKey s l := by
  induction l with
  | nil => simp [eraseKey]
  | cons hd tl ih =>
      obtain ⟨k', v'⟩ := hd
      by_cases hk : k' = k
      · subst hk
        simp [eraseKey, lookupKey, hne]
      · by_cases hs : k' = s
        · simp [eraseKey, lookupKey, hk, hs, Ne.symm hne]
        · simp [eraseKey, lookupKey, hk, hs, ih]

theorem lookupKey_append_single_ne {κ α : Type} [DecidableEq κ] (k s : κ) (v : α)
    (l : List (κ × α)) (hne : k ≠ s) :
    lookupKey s (l ++ [(k, v)]) = lookupKey s l := by
  induction l with
  | nil => simp [lookupKey, hne]
  | cons hd tl ih =>
      obtain ⟨k', v'⟩ := hd
      by_cases hs : k' = s
      · simp [lookupKey, hs]
      · simp [lookupKey, hs, ih]

theorem Portfolio.add_position_lookup_ne (pf : Portfolio) (sym : Sym) (q : ℤ)
    (p cb : ℚ) (s : Sym) (hne : sym ≠ s) :
    lookupKey s (pf.add_position sym q p cb).positions = lookupKey s pf.positions := by
  unfold Portfolio.add_position
  cases lookupKey sym pf.positions
  case none => exact lookupKey_append_single_ne _ _ _ _ hne
  case some pos =>
    dsimp only []
    split
    · exact lookupKey_setKey_ne _ _ _ _ hne
    · exact lookupKey_eraseKey_ne _ _ _ hne

theorem Portfolio.remove_position_lookup_ne (pf : Portfolio) (sym : Sym) (q : ℤ)
    (p : ℚ) (s : Sym) (hne : sym ≠ s) :
    lookupKey s ((pf.remove_position sym q p).2.2).positions =
      lookupKey s pf.positions := by
  unfold Portfolio.remove_position
  cases lookupKey sym pf.positions
  case none => rfl
  case some pos =>
    dsimp only []
    split
    · split
      · exact lookupKey_setKey_ne _ _ _ _ hne
      · exact lookupKey_eraseKey_ne _ _ _ hne
    · rfl

/-- Applying a trade never changes the position stored under a different
symbol (the cash moves, but only the trade's own symbol's entry is touched). -/
theorem Portfolio.update_from_trade_lookup_ne (pf : Portfolio) (t : Trade) (s : Sym)
    (hne : t.symbol ≠ s) :
    lookupKey s ((pf.update_from_trade t).2.2).positions =
      lookupKey s pf.positions := by
  unfold Portfolio.update_from_trade
  dsimp only []
  split
  · exact Portfolio.add_position_lookup_ne _ _ _ _ _ _ hne
  · exact Portfolio.remove_position_lookup_ne _ _ _ _ _ hne

theorem validate_sell_symbol (e : ExecutionEngine) (o : Order) (prices : PriceMap)
    (vo : Order) (h : e.validate_sell_order o prices = some vo) :
    vo.symbol = o.symbol := by
  unfold ExecutionEngine.validate_sell_order at h
  cases hpp : lookupKey o.symbol prices with
  | none =>
      rw [hpp] at h
      exact absurd h (by simp)
  | some p =>
      rw [hpp] at h
      cases hpos : lookupKey o.symbol e.portfolio.positions with
      | none =>
          rw [hpos] at h
          exact absurd h (by simp)
      | some pos =>
          rw [hpos] at h
          dsimp only [] at h
          by_cases h0 : pos.quantity ≤ 0
          · rw [if_pos h0] at h
            exact absurd h (by simp)
          · rw [if_neg h0] at h
            by_cases hlt : pos.quantity < |o.quantity|
            · rw [if_pos hlt] at h
              obtain rfl := Option.some.inj h
              rfl
            · rw [if_neg hlt] at h
              obtain rfl := Option.some.inj h
              rfl

theorem validate_sell_props (e : ExecutionEngine) (o : Order) (prices : PriceMap)
    (vo : Order) (ho : o.quantity < 0)
    (h : e.validate_sell_order o prices = some vo) :
    vo.symbol = o.symbol ∧ vo.quantity < 0 ∧ ∃ p, lookupKey o.symbol prices = some p := by
  unfold ExecutionEngine.validate_sell_order at h
  cases hpp : lookupKey o.symbol prices with
  | none =>
      rw [hpp] at h
      exact absurd h (by simp)
  | some p =>
      rw [hpp] at h
      cases hpos : lookupKey o.symbol e.portfolio.positions with
      | none =>
          rw [hpos] at h
          exact absurd h (by simp)
      | some pos =>
          rw [hpos] at h
          dsimp only [] at h
          by_cases h0 : pos.quantity ≤ 0
          · rw [if_pos h0] at h
            exact absurd h (by simp)
          · rw [if_neg h0] at h
            by_cases hlt : pos.quantity < |o.quantity|
            · rw [if_pos hlt] at h
              obtain rfl := Option.some.inj h
              exact ⟨rfl, by dsimp only []; omega, p, rfl⟩
            · rw [if_neg hlt] at h
              obtain rfl := Option.some.inj h
              exact ⟨rfl, ho, p, rfl⟩

/-- A trade built by the sell-validation loop carries its order's symbol, and
a negative quantity whenever the order is a sell. -/
theorem mkSellTrade_props (e : ExecutionEngine) (o : Order) (d : ℕ) (prices : PriceMap)
    (t : Trade) (h : e.mkSellTrade o d prices = some t) :
    t.symbol = o.symbol ∧ (o.quantity < 0 → t.quantity < 0) := by
  unfold ExecutionEngine.mkSellTrade at h
  cases hv : e.validate_sell_order o prices with
  | none =>
      rw [hv] at h
      exact absurd h (by simp)
  | some vo =>
      rw [hv] at h
      dsimp only [] at h
      obtain rfl := Option.some.inj h
      refine ⟨validate_sell_symbol e o prices vo hv, ?_⟩
      intro ho
      obtain ⟨_, hq, _⟩ := validate_sell_props e o prices vo ho hv
      exact hq

/-- Sell validation for a symbol with no (positively held) position builds no
trade. -/
theorem mkSellTrade_drop (e : ExecutionEngine) (o : Order) (d : ℕ) (prices : PriceMap)
    (hdrop : lookupKey o.symbol e.portfolio.positions = none ∨
      ∀ pos, lookupKey o.symbol e.portfolio.positions = some pos → pos.quantity ≤ 0) :
    e.mkSellTrade o d prices = none := by
  unfold ExecutionEngine.mkSellTrade ExecutionEngine.validate_sell_order
  cases hpp : lookupKey o.symbol prices with
  | none => rfl
  | some p =>
      cases hpos : lookupKey o.symbol e.portfolio.positions with
      | none => rfl
      | some pos =>
          dsimp only []
          rcases hdrop with h | h
          · rw [hpos] at h
            exact absurd h (by simp)
          · rw [if_pos (h pos hpos)]

/-- Every executed sell trade is some input trade with its pnl filled in: in
particular it keeps that trade's symbol and quantity. -/
theorem applySellTrades_executed_from :
    ∀ (ts : List Trade) (e : ExecutionEngine) (u : Trade),
      u ∈ (e.applySellTrades ts).2 →
      ∃ x ∈ ts, u.symbol = x.symbol ∧ u.quantity = x.quantity := by
  intro ts
  induction ts with
  | nil =>
      intro e u hu
      simp [ExecutionEngine.applySellTrades] at hu
  | cons t tl ih =>
      intro e u hu
      unfold ExecutionEngine.applySellTrades at hu
      dsimp only [] at hu
      by_cases hr : (e.portfolio.update_from_trade t).1 = true
      · rw [if_pos hr] at hu
        dsimp only [] at hu
        rcases List.mem_cons.mp hu with rfl | hu'
        · exact ⟨t, List.mem_cons_self _ _, rfl, rfl⟩
        · obtain ⟨x, hx, hs, hq⟩ := ih _ u hu'
          exact ⟨x, List.mem_cons_of_mem _ hx, hs, hq⟩
      · rw [if_neg hr] at hu
        obtain ⟨x, hx, hs, hq⟩ := ih _ u hu
        exact ⟨x, List.mem_cons_of_mem _ hx, hs, hq⟩

/-- If no input trade carries symbol `s`, no executed trade does either. -/
theorem applySellTrades_no_symbol (ts : List Trade) (e : ExecutionEngine) (s : Sym)
    (h : ts.filter (fun u => decide (u.symbol = s)) = []) :
    ((e.applySellTrades ts).2).filter (fun u => decide (u.symbol = s)) = [] := by
  rw [List.filter_eq_nil_iff]
  intro u hu
  obtain ⟨x, hx, hsym, _⟩ := applySellTrades_executed_from ts e u hu
  simp only [decide_eq_true_eq]
  intro heq
  have hxf : x ∈ ts.filter (fun u => decide (u.symbol = s)) :=
    List.mem_filter.mpr ⟨hx, by simp [← hsym, heq]⟩
  rw [h] at hxf
  simp at hxf

/-- The central batch lemma: if exactly one input trade `t` carries symbol
`s`, the symbol is held with enough quantity for `t`, and the other trades
(of other symbols) are applied around it, then the executed trades for `s`
are exactly `t` with its pnl `(execution_price - cost_basis)*|quantity|`
recorded — applications of other symbols' trades never disturb `s`'s
position. -/
theorem applySellTrades_unique_symbol :
    ∀ (ts : List Trade) (e : ExecutionEngine) (s : Sym) (pos : Position) (t : Trade),
      lookupKey s e.portfolio.positions = some pos →
      ts.filter (fun u => decide (u.symbol = s)) = [t] →
      t.quantity < 0 → |t.quantity| ≤ pos.quantity →
      ((e.applySellTrades ts).2).filter (fun u => decide (u.symbol = s)) =
        [{ t with pnl :=
            (t.execution_price - pos.cost_basis) * ((|t.quantity| : ℤ) : ℚ) }] := by
  intro ts
  induction ts with
  | nil =>
      intro e s pos t hpos hf hq hle
      simp at hf
  | cons hd tl ih =>
      intro e s pos t hpos hf hq hle
      by_cases hs : hd.symbol = s
      · rw [List.filter_cons_of_pos (by simp [hs])] at hf
        obtain ⟨rfl, hnil⟩ := List.cons.inj hf
        unfold ExecutionEngine.applySellTrades
        dsimp only []
        have hcomp := update_sell_components e.portfolio hd pos hq
          (by rw [hs]; exact hpos) hle
        rw [if_pos hcomp.1]
        dsimp only []
        rw [List.filter_cons_of_pos (by simp [hs])]
        rw [applySellTrades_no_symbol tl _ s hnil]
        rw [hcomp.2]
      · rw [List.filter_cons_of_neg (by simp [hs])] at hf
        unfold ExecutionEngine.applySellTrades
        dsimp only []
        have hpres : lookupKey s ((e.portfolio.update_from_trade hd).2.2).positions =
            some pos := by
          rw [Portfolio.update_from_trade_lookup_ne _ _ _ hs]
          exact hpos
        by_cases hr : (e.portfolio.update_from_trade hd).1 = true
        · rw [if_pos hr]
          dsimp only []
          rw [List.filter_cons_of_neg (by simp [hs])]
          exact ih _ s pos t hpres hf hq hle
        · rw [if_neg hr]
          exact ih _ s pos t hpres hf hq hle

/-- If `s` is not among the symbols of a list of sell orders, the trades
built from them contain no trade for `s`. -/
theorem sellTrades_no_symbol (e : ExecutionEngine) (d : ℕ) (prices : PriceMap)
    (os : List Order) (s : Sym) (hs : s ∉ os.map (fun x => x.symbol)) :
    (os.filterMap (fun x => e.mkSellTrade x d prices)).filter
      (fun u => decide (u.symbol = s)) = [] := by
  rw [List.filter_eq_nil_iff]
  intro u hu
  obtain ⟨o', ho', hmk'⟩ := List.mem_filterMap.mp hu
  have husym : u.symbol = o'.symbol := (mkSellTrade_props e o' d prices u hmk').1
  simp only [decide_eq_true_eq]
  intro heq
  apply hs
  rw [← heq, husym]
  exact List.mem_map.mpr ⟨o', ho', rfl⟩

/-- Among sell orders with pairwise distinct symbols, the trades built from
them contain exactly the one trade of `o`'s symbol (when `o` validates). -/
theorem sellTrades_filter_symbol :
    ∀ (os : List Order) (e : ExecutionEngine) (d : ℕ) (prices : PriceMap) (o : Order)
      (T : Trade),
      o ∈ os → (os.map (fun x => x.symbol)).Nodup →
      e.mkSellTrade o d prices = some T →
      (os.filterMap (fun x => e.mkSellTrade x d prices)).filter
        (fun u => decide (u.symbol = o.symbol)) = [T] := by
  intro os
  induction os with
  | nil =>
      intro e d prices o T ho _ _
      simp at ho
  | cons a os' ih =>
      intro e d prices o T ho hnd hmk
      rw [List.map_cons, List.nodup_cons] at hnd
      by_cases hsym : a.symbol = o.symbol
      · have hoa : o = a := by
          rcases List.mem_cons.mp ho with rfl | hmem
          · rfl
          · exact absurd (by rw [hsym]; exact List.mem_map.mpr ⟨o, hmem, rfl⟩) hnd.1
        subst hoa
        simp only [List.filterMap_cons, hmk]
        rw [List.filter_cons_of_pos
          (by simp [(mkSellTrade_props e o d prices T hmk).1])]
        rw [sellTrades_no_symbol e d prices os' o.symbol hnd.1]
      · have hmem : o ∈ os' := by
          rcases List.mem_cons.mp ho with rfl | hmem
          · exact absurd rfl hsym
          · exact hmem
        cases hmka : e.mkSellTrade a d prices with
        | none =>
            simp only [List.filterMap_cons, hmka]
            exact ih e d prices o T hmem hnd.2 hmk
        | some x =>
            simp only [List.filterMap_cons, hmka]
            rw [List.filter_cons_of_neg
              (by simp [(mkSellTrade_props e a d prices x hmka).1, hsym])]
            exact ih e d prices o T hmem hnd.2 hmk

/-- Counterpart of `sellTrades_filter_symbol` for an order that builds no
trade: no trade of its symbol appears at all. -/
theorem sellTrades_filter_symbol_none :
    ∀ (os : List Order) (e : ExecutionEngine) (d : ℕ) (prices : PriceMap) (o : Order),
      o ∈ os → (os.map (fun x => x.symbol)).Nodup →
      e.mkSellTrade o d prices = none →
      (os.filterMap (fun x => e.mkSellTrade x d prices)).filter
        (fun u => decide (u.symbol = o.symbol)) = [] := by
  intro os
  induction os with
  | nil =>
      intro e d prices o ho _ _
      simp at ho
  | cons a os' ih =>
      intro e d prices o ho hnd hmk
      rw [List.map_cons, List.nodup_cons] at hnd
      by_cases hsym : a.symbol = o.symbol
      · have hoa : o = a := by
          rcases List.mem_cons.mp ho with rfl | hmem
          · rfl
          · exact absurd (by rw [hsym]; exact List.mem_map.mpr ⟨o, hmem, rfl⟩) hnd.1
        subst hoa
        simp only [List.filterMap_cons, hmk]
        rw [sellTrades_no_symbol e d prices os' o.symbol hnd.1]
      · have hmem : o ∈ os' := by
          rcases List.mem_cons.mp ho with rfl | hmem
          · exact absurd rfl hsym
          · exact hmem
        cases hmka : e.mkSellTrade a d prices with
        | none =>
            simp only [List.filterMap_cons, hmka]
            exact ih e d prices o hmem hnd.2 hmk
        | some x =>
            simp only [List.filterMap_cons, hmka]
            rw [List.filter_cons_of_neg
              (by simp [(mkSellTrade_props e a d prices x hmka).1, hsym])]
            exact ih e d prices o hmem hnd.2 hmk

theorem validate_buy_quantity_pos (e : ExecutionEngine) (o : Order) (prices : PriceMap)
    (cash : ℚ) (vo : Order) (hq : 0 < o.quantity)
    (h : e.validate_buy_order o prices cash = some vo) : 0 < vo.quantity := by
  unfold ExecutionEngine.validate_buy_order at h
  cases hpp : lookupKey o.symbol prices with
  | none =>
      rw [hpp] at h
      exact absurd h (by simp)
  | some p =>
      rw [hpp] at h
      dsimp only [] at h
      split_ifs at h with h1 h2 h3
      · obtain rfl := Option.some.inj h
        dsimp only []
        omega
      · obtain rfl := Option.some.inj h
        exact hq

/-- Every trade the buy loop executes has positive quantity. -/
theorem applyBuyOrders_trades_pos :
    ∀ (os : List Order) (e : ExecutionEngine) (d : ℕ) (prices : PriceMap),
      (∀ o ∈ os, 0 < o.quantity) →
      ∀ u ∈ (e.applyBuyOrders d prices os).2, 0 < u.quantity := by
  intro os
  induction os with
  | nil =>
      intro e d prices _ u hu
      simp [ExecutionEngine.applyBuyOrders] at hu
  | cons o os' ih =>
      intro e d prices hos u hu
      unfold ExecutionEngine.applyBuyOrders at hu
      dsimp only [] at hu
      cases hv : e.validate_buy_order o prices e.portfolio.cash with
      | none =>
          rw [hv] at hu
          exact ih _ d prices (fun o' h' => hos o' (List.mem_cons_of_mem _ h')) u hu
      | some vo =>
          rw [hv] at hu
          dsimp only [] at hu
          have hvq := validate_buy_quantity_pos e o prices e.portfolio.cash vo
            (hos o (List.mem_cons_self _ _)) hv
          split at hu
          · dsimp only [] at hu
            rcases List.mem_cons.mp hu with rfl | hu'
            · exact hvq
            · exact ih _ d prices (fun o' h' => hos o' (List.mem_cons_of_mem _ h')) u hu'
          · exact ih _ d prices (fun o' h' => hos o' (List.mem_cons_of_mem _ h')) u hu

/-- In a batch whose sell orders have pairwise distinct symbols, a sell
order for a quoted, positively held symbol yields exactly one executed sell
trade: quantity clipped to the held amount, pnl
`(price*(1-slippage) - cost_basis) * magnitude`. -/
theorem exec_orders_sell_clip (e : ExecutionEngine) (orders : List Order) (d : ℕ)
    (prices : PriceMap) (o : Order) (p : ℚ) (pos : Position)
    (ho : o ∈ orders) (hoq : o.quantity < 0)
    (hnd : ((orders.filter (fun x => decide (x.quantity < 0))).map
      (fun x => x.symbol)).Nodup)
    (hp : lookupKey o.symbol prices = some p)
    (hpos : lookupKey o.symbol e.portfolio.positions = some pos)
    (h0 : 0 < pos.quantity) :
    (((e.execute_orders orders d prices).2).filter
        (fun t => decide (t.symbol = o.symbol) && decide (t.quantity < 0))).map
      (fun t => (t.quantity, t.pnl)) =
      [(-(min pos.quantity |o.quantity|),
        (p * (1 - e.slippage_rate) - pos.cost_basis) *
          ((min pos.quantity |o.quantity| : ℤ) : ℚ))] := by
  have habs := abs_of_neg hoq
  have hminpos : 0 < min pos.quantity |o.quantity| := by omega
  have hne : ¬(orders.isEmpty = true) := by
    cases orders with
    | nil => simp at ho
    | cons a l => simp
  have hmemsell : o ∈ orders.filter (fun x => decide (x.quantity < 0)) :=
    List.mem_filter.mpr ⟨ho, by simp [hoq]⟩
  have hmk := mkSellTrade_some e o d prices p pos hoq hp hpos h0
  have hfilter1 := sellTrades_filter_symbol
    (orders.filter (fun x => decide (x.quantity < 0))) e d prices o _ hmemsell hnd hmk
  have hts1 := applySellTrades_unique_symbol
    ((orders.filter (fun x => decide (x.quantity < 0))).filterMap
      (fun x => e.mkSellTrade x d prices)) e o.symbol pos _ hpos hfilter1
    (by dsimp only []; omega)
    (by
      dsimp only []
      rw [abs_neg, abs_of_nonneg (le_of_lt hminpos)]
      exact min_le_left _ _)
  have hnegexec : ∀ u ∈ (e.applySellTrades
      ((orders.filter (fun x => decide (x.quantity < 0))).filterMap
        (fun x => e.mkSellTrade x d prices))).2, u.quantity < 0 := by
    intro u hu
    obtain ⟨x, hx, _, hq'⟩ := applySellTrades_executed_from _ _ u hu
    obtain ⟨o', ho', hmk'⟩ := List.mem_filterMap.mp hx
    have hx' := (mkSellTrade_props e o' d prices x hmk').2
      (of_decide_eq_true (List.mem_filter.mp ho').2)
    omega
  have hbuypos : ∀ u ∈ (((e.applySellTrades
      ((orders.filter (fun x => decide (x.quantity < 0))).filterMap
        (fun x => e.mkSellTrade x d prices))).1).applyBuyOrders d prices
      (orders.filter (fun x => decide (0 < x.quantity)))).2, 0 < u.quantity :=
    applyBuyOrders_trades_pos _ _ d prices
      (fun x hx => of_decide_eq_true (List.mem_filter.mp hx).2)
  have hcomb : ((e.applySellTrades
      ((orders.filter (fun x => decide (x.quantity < 0))).filterMap
        (fun x => e.mkSellTrade x d prices))).2).filter
      (fun t => decide (t.symbol = o.symbol) && decide (t.quantity < 0)) =
      ((e.applySellTrades
        ((orders.filter (fun x => decide (x.quantity < 0))).filterMap
          (fun x => e.mkSellTrade x d prices))).2).filter
        (fun u => decide (u.symbol = o.symbol)) :=
    List.filter_congr (fun u hu => by
      have hq' := hnegexec u hu
      simp [hq'])
  have hbuynil : (((e.applySellTrades
      ((orders.filter (fun x => decide (x.quantity < 0))).filterMap
        (fun x => e.mkSellTrade x d prices))).1).applyBuyOrders d prices
      (orders.filter (fun x => decide (0 < x.quantity)))).2.filter
      (fun t => decide (t.symbol = o.symbol) && decide (t.quantity < 0)) = [] := by
    rw [List.filter_eq_nil_iff]
    intro u hu
    have hq' := hbuypos u hu
    simp only [Bool.and_eq_true, decide_eq_true_eq, not_and]
    intro _
    omega
  unfold ExecutionEngine.execute_orders
  dsimp only []
  rw [if_neg hne]
  rw [List.filter_append, hbuynil, List.append_nil, hcomb, hts1]
  rw [abs_of_neg (by omega : -(min pos.quantity |o.quantity|) < 0), neg_neg]
  simp

/-- In a batch whose sell orders have pairwise distinct symbols, a sell
order for a symbol without a positively held position contributes no
executed sell trade. -/
theorem exec_orders_sell_drop_batch (e : ExecutionEngine) (orders : List Order)
    (d : ℕ) (prices : PriceMap) (o : Order)
    (ho : o ∈ orders) (hoq : o.quantity < 0)
    (hnd : ((orders.filter (fun x => decide (x.quantity < 0))).map
      (fun x => x.symbol)).Nodup)
    (hdrop : lookupKey o.symbol e.portfolio.positions = none ∨
      ∀ pos, lookupKey o.symbol e.portfolio.positions = some pos →
        pos.quantity ≤ 0) :
    ((e.execute_orders orders d prices).2).filter
      (fun t => decide (t.symbol = o.symbol) && decide (t.quantity < 0)) = [] := by
  have hne : ¬(orders.isEmpty = true) := by
    cases orders with
    | nil => simp at ho
    | cons a l => simp
  have hmemsell : o ∈ orders.filter (fun x => decide (x.quantity < 0)) :=
    List.mem_filter.mpr ⟨ho, by simp [hoq]⟩
  have hmk := mkSellTrade_drop e o d prices hdrop
  have hfilter0 := sellTrades_filter_symbol_none
    (orders.filter (fun x => decide (x.quantity < 0))) e d prices o hmemsell hnd hmk
  have hts1 := applySellTrades_no_symbol
    ((orders.filter (fun x => decide (x.quantity < 0))).filterMap
      (fun x => e.mkSellTrade x d prices)) e o.symbol hfilter0
  have hbuypos : ∀ u ∈ (((e.applySellTrades
      ((orders.filter (fun x => decide (x.quantity < 0))).filterMap
        (fun x => e.mkSellTrade x d prices))).1).applyBuyOrders d prices
      (orders.filter (fun x => decide (0 < x.quantity)))).2, 0 < u.quantity :=
    applyBuyOrders_trades_pos _ _ d prices
      (fun x hx => of_decide_eq_true (List.mem_filter.mp hx).2)
  unfold ExecutionEngine.execute_orders
  dsimp only []
  rw [if_neg hne]
  rw [List.filter_append]
  rw [List.append_eq_nil]
  constructor
  · rw [List.filter_eq_nil_iff]
    intro u hu
    simp only [Bool.and_eq_true, decide_eq_true_eq, not_and]
    intro hus _
    have hmemf : u ∈ ((e.applySellTrades
        ((orders.filter (fun x => decide (x.quantity < 0))).filterMap
          (fun x => e.mkSellTrade x d prices))).2).filter
        (fun u => decide (u.symbol = o.symbol)) :=
      List.mem_filter.mpr ⟨hu, by simp [hus]⟩
    rw [hts1] at hmemf
    simp at hmemf
  · rw [List.filter_eq_nil_iff]
    intro u hu
    have hq' := hbuypos u hu
    simp only [Bool.and_eq_true, decide_eq_true_eq, not_and]
    intro _
    omega

/-- C5 (amended): for every sell order `o` of a batch whose sell orders
carry pairwise distinct symbols: (i) if `o`'s symbol is quoted and held with
positive quantity, the batch's executed trades contain exactly one sell
trade for that symbol, its magnitude the requested quantity clipped to the
held quantity (so an oversized sell is clipped and still executed, never
rejected outright); (ii) if no position is held (or the held quantity is
≤ 0), `o` contributes no executed sell Trade, and a batch consisting of `o`
alone leaves the engine unchanged.  In every batch, distinct symbols or not:
(iii) a sell trade is applied successfully — and hence recorded as executed —
only when its symbol is held with at least the trade's magnitude immediately
before that application, and (iv) `update_from_trade` adjusts the cash by
`-amount` unconditionally, whether or not the application succeeds (so a
same-symbol sell that fails after an earlier sell exhausted the position is
dropped without a Trade while its cash effect still applies — the
counterexample's batch). -/
theorem sell_order_validation_semantics (e : ExecutionEngine) (orders : List Order)
    (d : ℕ) (prices : PriceMap) (o : Order)
    (ho : o ∈ orders) (hoq : o.quantity < 0)
    (hnd : ((orders.filter (fun x => decide (x.quantity < 0))).map
      (fun x => x.symbol)).Nodup) :
    (∀ p pos, lookupKey o.symbol prices = some p →
      lookupKey o.symbol e.portfolio.positions = some pos → 0 < pos.quantity →
      (((e.execute_orders orders d prices).2).filter
          (fun t => decide (t.symbol = o.symbol) && decide (t.quantity < 0))).map
        (fun t => (t.quantity, t.pnl)) =
        [(-(min pos.quantity |o.quantity|),
          (p * (1 - e.slippage_rate) - pos.cost_basis) *
            ((min pos.quantity |o.quantity| : ℤ) : ℚ))]) ∧
    ((lookupKey o.symbol e.portfolio.positions = none ∨
        ∀ pos, lookupKey o.symbol e.portfolio.positions = some pos →
          pos.quantity ≤ 0) →
      ((e.execute_orders orders d prices).2).filter
          (fun t => decide (t.symbol = o.symbol) && decide (t.quantity < 0)) = [] ∧
      e.execute_orders [o] d prices = (e, [])) ∧
    (∀ (pf : Portfolio) (t : Trade), t.quantity < 0 →
      (pf.update_from_trade t).1 = true →
      ∃ pos, lookupKey t.symbol pf.positions = some pos ∧
        |t.quantity| ≤ pos.quantity) ∧
    (∀ (pf : Portfolio) (t : Trade),
      ((pf.update_from_trade t).2.2).cash = pf.cash - t.amount) := by
  refine ⟨?_, ?_, update_sell_success_requires_held,
    fun pf t => Portfolio.update_from_trade_cash pf t⟩
  · intro p pos hp hpos h0
    exact exec_orders_sell_clip e orders d prices o p pos ho hoq hnd hp hpos h0
  · intro hdrop
    exact ⟨exec_orders_sell_drop_batch e orders d prices o ho hoq hnd hdrop,
      exec_single_sell_drop e o d prices hoq hdrop⟩

def c5e : ExecutionEngine := ⟨0, 0, ⟨0, [("A", ⟨5, 10, 50⟩)], []⟩, []⟩

/-- Counterexample to C5 as stated: in the batch `[sell 5 A, sell 7 A]`
against a position of 5 shares (price quoted, held quantity 5 > 0), the
second order is clipped at validation time but its application fails (the
first sell exhausted the position in the meantime), so it produces no Trade —
only one trade is executed, and its cash effect is still applied (cash grows
to 100, twice the 50 of the single executed sale). -/
theorem sell_order_counterexample :
    ((c5e.execute_orders [⟨"A", -5⟩, ⟨"A", -7⟩] 0 [("A", 10)]).2).map
        (fun t => t.quantity) = [-5] ∧
      ((0 : ℤ) < 5 ∧ (5 : ℤ) < |(-7 : ℤ)|) ∧
      ((c5e.execute_orders [⟨"A", -5⟩, ⟨"A", -7⟩] 0 [("A", 10)]).1).portfolio.cash = 100 := by
  with_unfolding_all decide

def c5we : ExecutionEngine :=
  ⟨0, 0, ⟨0, [("A", ⟨5, 6, 50⟩), ("B", ⟨3, 4, 12⟩)], []⟩, []⟩

/-- Witness for C5: in the two-symbol batch `[sell 7 A, sell 1 B]` (distinct
sell symbols), the oversized A sell — 7 requested against 5 held at cost
basis 6, price 10 — is clipped to 5 shares and still executed, with pnl
`(10 - 6) * 5 = 20`. -/
theorem sell_order_validation_semantics_witness :
    ((⟨"A", -7⟩ : Order) ∈ [(⟨"A", -7⟩ : Order), ⟨"B", -1⟩] ∧ (-7 : ℤ) < 0) ∧
      (((c5we.execute_orders [⟨"A", -7⟩, ⟨"B", -1⟩] 0
            [("A", 10), ("B", 20)]).2).filter
          (fun t => decide (t.symbol = "A") && decide (t.quantity < 0))).map
        (fun t => (t.quantity, t.pnl)) = [((-5 : ℤ), (20 : ℚ))] :=
  ⟨⟨by decide, by decide⟩,
    ((sell_order_validation_semantics c5we [⟨"A", -7⟩, ⟨"B", -1⟩] 0
        [("A", 10), ("B", 20)] ⟨"A", -7⟩ (by decide) (by decide)
        (by with_unfolding_all decide)).1 10 ⟨5, 6, 50⟩
      (by with_unfolding_all decide) (by with_unfolding_all decide)
      (by decide)).trans (by with_unfolding_all decide)⟩

/-! Section C6 — buy clipping against available cash -/

/-- C6: for a single buy order whose requested all-in cost
(`quantity * execution_price + commission`, commission computed from the
requested quantity) exceeds the available cash: the executed quantity is
`⌊(available_cash - commission) / execution_price⌋` — the commission in the
formula being the one of the original requested quantity, not re-derived from
the clipped one — and when that clipped quantity is not positive (in
particular when `available_cash ≤ commission`) the order is dropped with no
Trade. -/
theorem buy_clip_semantics (e : ExecutionEngine) (o : Order) (d : ℕ)
    (prices : PriceMap) (p : ℚ)
    (hq : 1 ≤ o.quantity)
    (hp : lookupKey o.symbol prices = some p)
    (hppos : 0 < p)
    (hsr : 0 ≤ e.slippage_rate)
    (hover : e.portfolio.cash <
      (o.quantity : ℚ) * (p * (1 + e.slippage_rate)) +
        |(o.quantity : ℚ) * (p * (1 + e.slippage_rate)) * e.commission_rate|) :
    (1 ≤ ⌊(e.portfolio.cash -
          |(o.quantity : ℚ) * (p * (1 + e.slippage_rate)) * e.commission_rate|) /
          (p * (1 + e.slippage_rate))⌋ →
      ((e.execute_orders [o] d prices).2).map (fun t => t.quantity) =
        [⌊(e.portfolio.cash -
            |(o.quantity : ℚ) * (p * (1 + e.slippage_rate)) * e.commission_rate|) /
            (p * (1 + e.slippage_rate))⌋]) ∧
    (⌊(e.portfolio.cash -
          |(o.quantity : ℚ) * (p * (1 + e.slippage_rate)) * e.commission_rate|) /
          (p * (1 + e.slippage_rate))⌋ ≤ 0 →
      (e.execute_orders [o] d prices).2 = []) := by
  have hep : 0 < p * (1 + e.slippage_rate) := by
    have h1 : (0 : ℚ) < 1 + e.slippage_rate := by linarith
    exact mul_pos hppos h1
  unfold ExecutionEngine.execute_orders
  dsimp only []
  rw [if_neg (by simp : ¬ ([o].isEmpty = true))]
  rw [show List.filter (fun x => decide (x.quantity < 0)) [o] = [] by
        simp [List.filter_cons]
        omega]
  rw [show List.filter (fun x => decide (0 < x.quantity)) [o] = [o] by
        simp [List.filter_cons]
        omega]
  rw [show List.filterMap (fun x => e.mkSellTrade x d prices) [] = [] from rfl]
  rw [show e.applySellTrades [] = (e, []) from rfl]
  dsimp only []
  by_cases hA : e.portfolio.cash ≤
      |(o.quantity : ℚ) * (p * (1 + e.slippage_rate)) * e.commission_rate|
  · -- even the commission exceeds the cash: the order is dropped
    have hms : ⌊(e.portfolio.cash -
        |(o.quantity : ℚ) * (p * (1 + e.slippage_rate)) * e.commission_rate|) /
        (p * (1 + e.slippage_rate))⌋ ≤ 0 := by
      have h1 : (e.portfolio.cash -
          |(o.quantity : ℚ) * (p * (1 + e.slippage_rate)) * e.commission_rate|) /
          (p * (1 + e.slippage_rate)) ≤ 0 :=
        div_nonpos_of_nonpos_of_nonneg (by linarith) (le_of_lt hep)
      exact Int.floor_nonpos h1
    have hval : e.validate_buy_order o prices e.portfolio.cash = none := by
      unfold ExecutionEngine.validate_buy_order
      rw [hp]
      dsimp only []
      unfold ExecutionEngine.calc_slippage ExecutionEngine.calc_commission
      rw [if_pos (by omega : (0 : ℤ) < o.quantity)]
      rw [if_pos hover, if_pos hA]
    unfold ExecutionEngine.applyBuyOrders
    rw [hval]
    constructor
    · intro h1
      omega
    · intro _
      rfl
  · -- the commission fits: the order is clipped to the floor quantity
    have harg : 0 < (e.portfolio.cash -
        |(o.quantity : ℚ) * (p * (1 + e.slippage_rate)) * e.commission_rate|) /
        (p * (1 + e.slippage_rate)) :=
      div_pos (by linarith) hep
    have htrunc : pyTrunc ((e.portfolio.cash -
        |(o.quantity : ℚ) * (p * (1 + e.slippage_rate)) * e.commission_rate|) /
        (p * (1 + e.slippage_rate))) =
        ⌊(e.portfolio.cash -
          |(o.quantity : ℚ) * (p * (1 + e.slippage_rate)) * e.commission_rate|) /
          (p * (1 + e.slippage_rate))⌋ := by
      unfold pyTrunc
      rw [if_pos (le_of_lt harg)]
    by_cases hB : ⌊(e.portfolio.cash -
        |(o.quantity : ℚ) * (p * (1 + e.slippage_rate)) * e.commission_rate|) /
        (p * (1 + e.slippage_rate))⌋ ≤ 0
    · have hval : e.validate_buy_order o prices e.portfolio.cash = none := by
        unfold ExecutionEngine.validate_buy_order
        rw [hp]
        dsimp only []
        unfold ExecutionEngine.calc_slippage ExecutionEngine.calc_commission
        rw [if_pos (by omega : (0 : ℤ) < o.quantity)]
        rw [if_pos hover, if_neg hA, htrunc, if_pos hB]
      unfold ExecutionEngine.applyBuyOrders
      rw [hval]
      constructor
      · intro h1
        omega
      · intro _
        rfl
    · have hms : 0 < ⌊(e.portfolio.cash -
          |(o.quantity : ℚ) * (p * (1 + e.slippage_rate)) * e.commission_rate|) /
          (p * (1 + e.slippage_rate))⌋ := by omega
      have hval : e.validate_buy_order o prices e.portfolio.cash =
          some ⟨o.symbol, ⌊(e.portfolio.cash -
            |(o.quantity : ℚ) * (p * (1 + e.slippage_rate)) * e.commission_rate|) /
            (p * (1 + e.slippage_rate))⌋⟩ := by
        unfold ExecutionEngine.validate_buy_order
        rw [hp]
        dsimp only []
        unfold ExecutionEngine.calc_slippage ExecutionEngine.calc_commission
        rw [if_pos (by omega : (0 : ℤ) < o.quantity)]
        rw [if_pos hover, if_neg hA, htrunc, if_neg hB]
      unfold ExecutionEngine.applyBuyOrders
      rw [hval]
      dsimp only []
      rw [hp]
      dsimp only [Option.getD]
      unfold ExecutionEngine.calc_slippage
      rw [if_pos hms]
      unfold Portfolio.update_from_trade
      dsimp only []
      rw [if_pos hms]
      dsimp only []
      unfold ExecutionEngine.applyBuyOrders
      constructor
      · intro _
        rfl
      · intro h1
        omega

def c6e : ExecutionEngine := ⟨0, 0, ⟨100, [], []⟩, []⟩

/-- Witness for C6: with cash 100, a request for 20 shares at price 10 (cost
200 > 100, zero commission and slippage) is clipped to
`⌊(100 - 0)/10⌋ = 10` shares. -/
theorem buy_clip_semantics_witness :
    ((c6e.portfolio.cash < (20 : ℚ) * (10 * (1 + 0)) + |(20 : ℚ) * (10 * (1 + 0)) * 0|) ∧
      ((c6e.execute_orders [⟨"A", 20⟩] 0 [("A", 10)]).2).map (fun t => t.quantity) =
        [(10 : ℤ)]) := by
  constructor
  · with_unfolding_all decide
  · have h := (buy_clip_semantics c6e ⟨"A", 20⟩ 0 [("A", 10)] 10
      (by decide) (by with_unfolding_all decide) (by with_unfolding_all decide)
      (by with_unfolding_all decide) (by with_unfolding_all decide)).1
      (by with_unfolding_all decide)
    exact h.trans (by with_unfolding_all decide)

/-! Section C1 — the cash balance stays non-negative across `execute_orders` -/

/-- Every trade built from a validated sell order has a non-positive `amount`
(for positive prices and a slippage rate ≤ 1): applying it only adds cash. -/
theorem mkSellTrade_amount_nonpos (e : ExecutionEngine) (o : Order) (d : ℕ)
    (prices : PriceMap) (t : Trade)
    (hpr : ∀ s p, lookupKey s prices = some p → 0 < p)
    (hsr1 : e.slippage_rate ≤ 1)
    (ho : o.quantity < 0)
    (h : e.mkSellTrade o d prices = some t) :
    t.amount ≤ 0 := by
  unfold ExecutionEngine.mkSellTrade at h
  cases hv : e.validate_sell_order o prices with
  | none =>
      rw [hv] at h
      exact absurd h (by simp)
  | some vo =>
      rw [hv] at h
      dsimp only [] at h
      obtain ⟨hsym, hq, p, hpp⟩ := validate_sell_props e o prices vo ho hv
      have hpval : (lookupKey vo.symbol prices).getD 0 = p := by
        rw [hsym, hpp]
        rfl
      rw [hpval] at h
      have hep : e.calc_slippage vo.quantity p = p * (1 - e.slippage_rate) := by
        unfold ExecutionEngine.calc_slippage
        rw [if_neg (by omega : ¬ (0 : ℤ) < vo.quantity)]
      rw [hep] at h
      unfold ExecutionEngine.calc_commission at h
      obtain rfl := Option.some.inj h
      dsimp only []
      have hp0 : 0 < p := hpr _ _ hpp
      have hep0 : 0 ≤ p * (1 - e.slippage_rate) := mul_nonneg (le_of_lt hp0) (by linarith)
      have hql : (vo.quantity : ℚ) ≤ 0 := by exact_mod_cast le_of_lt hq
      have h1 : (vo.quantity : ℚ) * (p * (1 - e.slippage_rate)) ≤ 0 :=
        mul_nonpos_iff.mpr (Or.inr ⟨hql, hep0⟩)
      have h2 : 0 ≤ |(vo.quantity : ℚ) * (p * (1 - e.slippage_rate)) * e.commission_rate| :=
        abs_nonneg _
      linarith

theorem applySellTrades_cash_mono :
    ∀ (ts : List Trade) (e : ExecutionEngine), (∀ t ∈ ts, t.amount ≤ 0) →
      e.portfolio.cash ≤ ((e.applySellTrades ts).1).portfolio.cash := by
  intro ts
  induction ts with
  | nil =>
      intro e _
      exact le_refl _
  | cons t ts ih =>
      intro e hts
      unfold ExecutionEngine.applySellTrades
      dsimp only []
      have hcash : ((e.portfolio.update_from_trade t).2.2).cash =
          e.portfolio.cash - t.amount := Portfolio.update_from_trade_cash _ _
      have hta : t.amount ≤ 0 := hts t (List.mem_cons_self _ _)
      have hstep : e.portfolio.cash ≤ ((e.portfolio.update_from_trade t).2.2).cash := by
        rw [hcash]
        linarith
      split
      · dsimp only []
        refine le_trans hstep ?_
        exact ih _ (fun t' ht' => hts t' (List.mem_cons_of_mem _ ht'))
      · refine le_trans hstep ?_
        exact ih _ (fun t' ht' => hts t' (List.mem_cons_of_mem _ ht'))

theorem applySellTrades_rates :
    ∀ (ts : List Trade) (e : ExecutionEngine),
      ((e.applySellTrades ts).1).commission_rate = e.commission_rate ∧
      ((e.applySellTrades ts).1).slippage_rate = e.slippage_rate := by
  intro ts
  induction ts with
  | nil =>
      intro e
      exact ⟨rfl, rfl⟩
  | cons t ts ih =>
      intro e
      unfold ExecutionEngine.applySellTrades
      dsimp only []
      split
      · dsimp only []
        exact ih _
      · exact ih _

/-- A buy order that passes validation never costs more than the cash it was
validated against: in the clipped case the floor bound and the monotonicity
of the commission in the quantity combine to
`ms*price + commission(ms) ≤ (cash - commission(requested)) + commission(requested)`. -/
theorem validate_buy_le_cash (e : ExecutionEngine) (o : Order) (prices : PriceMap)
    (cash : ℚ) (vo : Order)
    (hpr : ∀ s p, lookupKey s prices = some p → 0 < p)
    (hcr : 0 ≤ e.commission_rate)
    (hsr : 0 ≤ e.slippage_rate)
    (hq : 0 < o.quantity)
    (h : e.validate_buy_order o prices cash = some vo) :
    vo.symbol = o.symbol ∧ 0 < vo.quantity ∧
      (vo.quantity : ℚ) *
          (e.calc_slippage vo.quantity ((lookupKey vo.symbol prices).getD 0)) +
        e.calc_commission vo.quantity
          (e.calc_slippage vo.quantity ((lookupKey vo.symbol prices).getD 0)) ≤ cash := by
  unfold ExecutionEngine.validate_buy_order at h
  cases hpp : lookupKey o.symbol prices with
  | none =>
      rw [hpp] at h
      exact absurd h (by simp)
  | some p =>
      rw [hpp] at h
      dsimp only [] at h
      have hp0 : 0 < p := hpr _ _ hpp
      have hepeq : e.calc_slippage o.quantity p = p * (1 + e.slippage_rate) := by
        unfold ExecutionEngine.calc_slippage
        rw [if_pos hq]
      have hep : 0 < p * (1 + e.slippage_rate) := mul_pos hp0 (by linarith)
      rw [hepeq] at h
      unfold ExecutionEngine.calc_commission at h
      have hcomm_eq : |(o.quantity : ℚ) * (p * (1 + e.slippage_rate)) *
          e.commission_rate| =
          (o.quantity : ℚ) * (p * (1 + e.slippage_rate)) * e.commission_rate := by
        refine abs_of_nonneg ?_
        have hq' : (0 : ℚ) ≤ (o.quantity : ℚ) := by exact_mod_cast le_of_lt hq
        positivity
      by_cases hover : cash <
          (o.quantity : ℚ) * (p * (1 + e.slippage_rate)) +
            |(o.quantity : ℚ) * (p * (1 + e.slippage_rate)) * e.commission_rate|
      · rw [if_pos hover] at h
        by_cases hA : cash ≤ |(o.quantity : ℚ) * (p * (1 + e.slippage_rate)) * e.commission_rate|
        · rw [if_pos hA] at h
          exact absurd h (by simp)
        · rw [if_neg hA] at h
          have harg : 0 < (cash -
              |(o.quantity : ℚ) * (p * (1 + e.slippage_rate)) * e.commission_rate|) /
              (p * (1 + e.slippage_rate)) :=
            div_pos (by linarith) hep
          have htr : pyTrunc ((cash -
              |(o.quantity : ℚ) * (p * (1 + e.slippage_rate)) * e.commission_rate|) /
              (p * (1 + e.slippage_rate))) =
              ⌊(cash -
                |(o.quantity : ℚ) * (p * (1 + e.slippage_rate)) * e.commission_rate|) /
                (p * (1 + e.slippage_rate))⌋ := by
            unfold pyTrunc
            rw [if_pos (le_of_lt harg)]
          rw [htr] at h
          by_cases hB : ⌊(cash -
              |(o.quantity : ℚ) * (p * (1 + e.slippage_rate)) * e.commission_rate|) /
              (p * (1 + e.slippage_rate))⌋ ≤ 0
          · rw [if_pos hB] at h
            exact absurd h (by simp)
          · rw [if_neg hB] at h
            obtain rfl := Option.some.inj h
            refine ⟨rfl, by dsimp only []; omega, ?_⟩
            dsimp only []
            rw [hpp]
            dsimp only [Option.getD]
            have hmsq : (0 : ℤ) <
                ⌊(cash -
                  |(o.quantity : ℚ) * (p * (1 + e.slippage_rate)) * e.commission_rate|) /
                  (p * (1 + e.slippage_rate))⌋ := by omega
            have hepeq2 : e.calc_slippage
                ⌊(cash -
                  |(o.quantity : ℚ) * (p * (1 + e.slippage_rate)) * e.commission_rate|) /
                  (p * (1 + e.slippage_rate))⌋ p = p * (1 + e.slippage_rate) := by
              unfold ExecutionEngine.calc_slippage
              rw [if_pos hmsq]
            rw [hepeq2]
            unfold ExecutionEngine.calc_commission
            have hfloor : ((⌊(cash -
                |(o.quantity : ℚ) * (p * (1 + e.slippage_rate)) * e.commission_rate|) /
                (p * (1 + e.slippage_rate))⌋ : ℤ) : ℚ) ≤
                (cash -
                  |(o.quantity : ℚ) * (p * (1 + e.slippage_rate)) * e.commission_rate|) /
                  (p * (1 + e.slippage_rate)) :=
              Int.floor_le _
            have h1 : ((⌊(cash -
                |(o.quantity : ℚ) * (p * (1 + e.slippage_rate)) * e.commission_rate|) /
                (p * (1 + e.slippage_rate))⌋ : ℤ) : ℚ) * (p * (1 + e.slippage_rate)) ≤
                cash -
                  |(o.quantity : ℚ) * (p * (1 + e.slippage_rate)) * e.commission_rate| := by
              have h2 := mul_le_mul_of_nonneg_right hfloor (le_of_lt hep)
              rwa [div_mul_cancel₀ _ (ne_of_gt hep)] at h2
            have hms0 : (0 : ℚ) < ((⌊(cash -
                |(o.quantity : ℚ) * (p * (1 + e.slippage_rate)) * e.commission_rate|) /
                (p * (1 + e.slippage_rate))⌋ : ℤ) : ℚ) := by exact_mod_cast hmsq
            have hmslt : ((⌊(cash -
                |(o.quantity : ℚ) * (p * (1 + e.slippage_rate)) * e.commission_rate|) /
                (p * (1 + e.slippage_rate))⌋ : ℤ) : ℚ) < (o.quantity : ℚ) := by
              refine lt_of_le_of_lt hfloor ?_
              rw [div_lt_iff₀ hep]
              linarith
            have hcomm2 : |((⌊(cash -
                |(o.quantity : ℚ) * (p * (1 + e.slippage_rate)) * e.commission_rate|) /
                (p * (1 + e.slippage_rate))⌋ : ℤ) : ℚ) * (p * (1 + e.slippage_rate)) *
                e.commission_rate| =
                ((⌊(cash -
                  |(o.quantity : ℚ) * (p * (1 + e.slippage_rate)) * e.commission_rate|) /
                  (p * (1 + e.slippage_rate))⌋ : ℤ) : ℚ) * (p * (1 + e.slippage_rate)) *
                  e.commission_rate := by
              refine abs_of_nonneg ?_
              positivity
            rw [hcomm2]
            have h3 : ((⌊(cash -
                |(o.quantity : ℚ) * (p * (1 + e.slippage_rate)) * e.commission_rate|) /
                (p * (1 + e.slippage_rate))⌋ : ℤ) : ℚ) * (p * (1 + e.slippage_rate)) *
                e.commission_rate ≤
                (o.quantity : ℚ) * (p * (1 + e.slippage_rate)) * e.commission_rate :=
              mul_le_mul_of_nonneg_right
                (mul_le_mul_of_nonneg_right (le_of_lt hmslt) (le_of_lt hep)) hcr
            linarith [h1, h3, hcomm_eq]
      · rw [if_neg hover] at h
        obtain rfl := Option.some.inj h
        refine ⟨rfl, hq, ?_⟩
        rw [hpp]
        dsimp only [Option.getD]
        rw [hepeq]
        unfold ExecutionEngine.calc_commission
        linarith [not_lt.mp hover]

theorem update_cash_nonneg_of_amount_le (pf : Portfolio) (t : Trade)
    (h : t.amount ≤ pf.cash) : 0 ≤ ((pf.update_from_trade t).2.2).cash := by
  rw [Portfolio.update_from_trade_cash]
  linarith

theorem applyBuyOrders_cash_nonneg (d : ℕ) (prices : PriceMap)
    (hpr : ∀ s p, lookupKey s prices = some p → 0 < p) :
    ∀ (os : List Order) (e : ExecutionEngine),
      0 ≤ e.commission_rate → 0 ≤ e.slippage_rate →
      (∀ o ∈ os, 0 < o.quantity) → 0 ≤ e.portfolio.cash →
      0 ≤ ((e.applyBuyOrders d prices os).1).portfolio.cash := by
  intro os
  induction os with
  | nil =>
      intro e _ _ _ hc
      exact hc
  | cons o os ih =>
      intro e hcr hsr hos hc
      unfold ExecutionEngine.applyBuyOrders
      dsimp only []
      cases hv : e.validate_buy_order o prices e.portfolio.cash with
      | none =>
          exact ih e hcr hsr (fun o' ho' => hos o' (List.mem_cons_of_mem _ ho')) hc
      | some vo =>
          dsimp only []
          obtain ⟨hsym, hvq, hle⟩ := validate_buy_le_cash e o prices e.portfolio.cash vo
            hpr hcr hsr (hos o (List.mem_cons_self _ _)) hv
          split
          · dsimp only []
            exact ih _ hcr hsr (fun o' ho' => hos o' (List.mem_cons_of_mem _ ho'))
              (update_cash_nonneg_of_amount_le _ _ hle)
          · exact ih _ hcr hsr (fun o' ho' => hos o' (List.mem_cons_of_mem _ ho'))
              (update_cash_nonneg_of_amount_le _ _ hle)

/-- C1 (amended): with non-negative initial cash, strictly positive
quoted prices, a non-negative commission rate and a slippage rate between 0
and 1, the cash balance is ≥ 0 after `execute_orders` for every order batch:
each applied sell trade's `amount` is non-positive (its application adds
cash), and each buy is validated or clipped against the live cash balance
just before its trade is applied. -/
theorem execute_orders_cash_nonneg (e : ExecutionEngine) (orders : List Order)
    (d : ℕ) (prices : PriceMap)
    (hpr : ∀ s p, lookupKey s prices = some p → 0 < p)
    (hcr : 0 ≤ e.commission_rate)
    (hsr0 : 0 ≤ e.slippage_rate) (hsr1 : e.slippage_rate ≤ 1)
    (hcash : 0 ≤ e.portfolio.cash) :
    0 ≤ ((e.execute_orders orders d prices).1).portfolio.cash := by
  unfold ExecutionEngine.execute_orders
  dsimp only []
  split
  · exact hcash
  · have hts : ∀ t ∈ (orders.filter (fun x => decide (x.quantity < 0))).filterMap
        (fun x => e.mkSellTrade x d prices), t.amount ≤ 0 := by
      intro t ht
      obtain ⟨o, hom, hmk⟩ := List.mem_filterMap.mp ht
      have ho : o.quantity < 0 := by
        have := (List.mem_filter.mp hom).2
        exact of_decide_eq_true this
      exact mkSellTrade_amount_nonpos e o d prices t hpr hsr1 ho hmk
    have h1 := applySellTrades_cash_mono
      ((orders.filter (fun x => decide (x.quantity < 0))).filterMap
        (fun x => e.mkSellTrade x d prices)) e hts
    have hrates := applySellTrades_rates
      ((orders.filter (fun x => decide (x.quantity < 0))).filterMap
        (fun x => e.mkSellTrade x d prices)) e
    have hbuys : ∀ o ∈ orders.filter (fun x => decide (0 < x.quantity)),
        0 < o.quantity := by
      intro o hom
      exact of_decide_eq_true (List.mem_filter.mp hom).2
    refine applyBuyOrders_cash_nonneg d prices hpr _ _ ?_ ?_ hbuys (le_trans hcash h1)
    · rw [hrates.1]
      exact hcr
    · rw [hrates.2]
      exact hsr0

def c1ce : ExecutionEngine := ⟨0, 2, ⟨50, [("A", ⟨10, 10, 100⟩)], []⟩, []⟩

/-- Counterexample to C1 as stated: with a non-negative slippage rate of 2
(the claim bounds the rates only from below), a positive price and
non-negative cash, a sell's execution price `10*(1-2)` is negative, its
`amount` is `+100`, and the cash ends at `50 - 100 = -50 < 0`.  (The same
engine also shows the "net of commission" gloss failing: with a nonzero
commission rate a sell's cash delta is `|q|*price + commission`, not
`|q|*price - commission`.) -/
theorem execute_orders_cash_counterexample :
    (0 ≤ c1ce.portfolio.cash ∧ 0 ≤ c1ce.commission_rate ∧ 0 ≤ c1ce.slippage_rate ∧
      (∀ s p, lookupKey s [("A", (10 : ℚ))] = some p → 0 < p)) ∧
    ((c1ce.execute_orders [⟨"A", -10⟩] 0 [("A", 10)]).1).portfolio.cash < 0 := by
  constructor
  · refine ⟨by with_unfolding_all decide, by decide, by decide, ?_⟩
    intro s p h
    by_cases hs : "A" = s
    · simp [lookupKey, hs] at h
      rw [← h]
      norm_num
    · simp [lookupKey, hs] at h
  · with_unfolding_all decide

def c1we : ExecutionEngine := ⟨0, 0, ⟨100, [], []⟩, []⟩

/-- Witness for the amended C1: a buy costing twice the cash is clipped and
the final cash is still ≥ 0. -/
theorem execute_orders_cash_nonneg_witness :
    (0 ≤ c1we.portfolio.cash ∧ 0 ≤ c1we.commission_rate ∧
      0 ≤ c1we.slippage_rate ∧ c1we.slippage_rate ≤ 1) ∧
    0 ≤ ((c1we.execute_orders [⟨"A", 20⟩] 0 [("A", 10)]).1).portfolio.cash :=
  ⟨⟨by with_unfolding_all decide, by decide, by decide, by decide⟩,
    execute_orders_cash_nonneg c1we [⟨"A", 20⟩] 0 [("A", 10)]
      (by
        intro s p h
        by_cases hs : "A" = s
        · simp [lookupKey, hs] at h
          rw [← h]
          norm_num
        · simp [lookupKey, hs] at h)
      (by decide) (by decide) (by decide) (by with_unfolding_all decide)⟩

/-! Section C4 — Scenario A: the scaling path yields 999 shares, not 1000 -/

/-- Counterexample to C4 (the spec's Scenario A): with initial capital
100000, one symbol "A" priced 100, target `{A: 1.0}`, zero commission and
slippage, no positions and available cash 100000, `generate_orders` does NOT
return a single buy order of 1000 shares. -/
theorem scenario_A_counterexample :
    generate_orders 0 0 (compare_positions [] [("A", 1)] 100000 [("A", 100)])
      [("A", 100)] 100000 [] ≠ [(⟨"A", 1000⟩ : Order)] := by
  with_unfolding_all decide

/-- C4 (amended): Scenario A takes the proportional-scaling path (the
estimated cost 100000 exceeds the buffered cash `100000 * 0.999 = 99900`) and
returns exactly one buy order for 999 shares of A: the scaled quantity
`int(1000 * 0.999) = 999` costs exactly the 99900 of buffered cash, the
remaining cash is 0, and the top-up pass therefore adds nothing. -/
theorem scenario_A_quantity_999 :
    generate_orders 0 0 (compare_positions [] [("A", 1)] 100000 [("A", 100)])
        [("A", 100)] 100000 [] = [(⟨"A", 999⟩ : Order)] ∧
      (100000 : ℚ) * (999/1000) < 1000 * 100 * (1 + 0) * (1 + 0) := by
  constructor
  · with_unfolding_all decide
  · norm_num

/-! Section C2 — the pending-order queue is never populated -/

def c2cfg : BTConfig :=
  ⟨1, [(0, [("A", 100)]), (1, [("A", 100)]), (2, [("A", 100)]), (3, [("A", 100)])],
   [0], [(0, [("A", 1)])]⟩

def c2init : BTState := initBTState 0 0 100000

/-- C2 (failing-input evaluation): with `execution_delay = 1` and a
rebalance on date 0 of the axis `[0,1,2,3]`, the planned order is executed
immediately during date 0's own iteration, against date 1's prices (after the
date-0 step alone the trade log already holds the trade stamped with
execution date 1), and `pending_orders` stays empty for the whole run: the
claimed enqueue-then-pop path never happens. -/
theorem run_backtest_pending_queue_never_used :
    (btStep c2cfg c2init 0).pending_orders = [] ∧
      ((btStep c2cfg c2init 0).engine.trade_log).map
        (fun t => (t.execution_date, t.quantity)) = [(1, 999)] ∧
      (btRun c2cfg c2init).pending_orders = [] ∧
      ((btRun c2cfg c2init).engine.trade_log).map
        (fun t => (t.execution_date, t.quantity)) = [(1, 999)] := by
  with_unfolding_all decide

/-! Section C3 — orders are generated and executed on non-rebalance dates -/

def c3cfg : BTConfig :=
  ⟨0, [(0, [("A", 100)]), (1, [("A", 50)])], [0], [(0, [("A", 1)])]⟩

def c3init : BTState := initBTState 0 0 100000

/-- C3 (failing-input evaluation): date 1 is not rebalance-eligible
(`rebalance_dates = [0]`) and the pending queue is empty throughout, yet the
run executes a buy trade on date 1: the `signals` variable keeps date 0's
stale value across iterations and the order-generation block is not gated on
eligibility, so the price drop from 100 to 50 triggers a 1-share top-up buy
on the mark-only date. -/
theorem run_backtest_trades_on_non_rebalance_date :
    ((btRun c3cfg c3init).engine.trade_log).map
        (fun t => (t.execution_date, t.quantity)) = [(0, 999), (1, 1)] ∧
      (1 : ℕ) ∉ c3cfg.rebalance_dates ∧
      (btRun c3cfg c3init).pending_orders = [] ∧
      c3init.pending_orders = [] := by
  with_unfolding_all decide

end V4
